import Mathlib

/-!
# Verification of the AnvilKit transform / scene-graph layer

Shallow embedding of `anvilkit-core/src/math/transform.rs` and
`anvilkit-ecs/src/transform.rs` (plus the pieces of the `glam` vector/matrix
library those files call into), together with proofs settling the frozen
claims about the hierarchical transform propagation subsystem.

Numeric model: `f32` values are modelled as elements of a linear ordered
field, exactly (no rounding).  All definitions that need only ring/field
operations are stated generically (and are executable over `ℚ`); the few
operations that need square roots (`normalize`, matrix decomposition,
quaternion-from-matrix) are stated over `ℝ` with `Real.sqrt`.
`f32::EPSILON` is the exact rational `2⁻²³`.
-/

/-! ## Vectors and quaternions (from glam) -/

/-- 3-component vector, modelling `glam::Vec3`. -/
structure Vec3 (α : Type) where
  x : α
  y : α
  z : α
deriving DecidableEq

/-- 4-component vector, modelling `glam::Vec4`. -/
structure Vec4 (α : Type) where
  x : α
  y : α
  z : α
  w : α
deriving DecidableEq

/-- Quaternion, modelling `glam::Quat` (x, y, z imaginary parts, w real part). -/
structure Quat (α : Type) where
  x : α
  y : α
  z : α
  w : α
deriving DecidableEq

/-- Column-major 4×4 matrix, modelling `glam::Mat4` (four column vectors). -/
structure Mat4 (α : Type) where
  xAxis : Vec4 α
  yAxis : Vec4 α
  zAxis : Vec4 α
  wAxis : Vec4 α
deriving DecidableEq

variable {α : Type} [LinearOrderedField α]

instance : Add (Vec3 α) := ⟨fun a b => ⟨a.x + b.x, a.y + b.y, a.z + b.z⟩⟩

instance : Sub (Vec3 α) := ⟨fun a b => ⟨a.x - b.x, a.y - b.y, a.z - b.z⟩⟩

instance : Neg (Vec3 α) := ⟨fun a => ⟨-a.x, -a.y, -a.z⟩⟩

/-- Componentwise product, modelling `glam`'s `Mul<Vec3> for Vec3`. -/
instance : Mul (Vec3 α) := ⟨fun a b => ⟨a.x * b.x, a.y * b.y, a.z * b.z⟩⟩

/-- Scalar multiple of a `Vec3` (glam's `Vec3 * f32`). -/
def Vec3.smul (a : Vec3 α) (s : α) : Vec3 α := ⟨a.x * s, a.y * s, a.z * s⟩

/-- Dot product (`glam::Vec3::dot`). -/
def Vec3.dot (a b : Vec3 α) : α := a.x * b.x + a.y * b.y + a.z * b.z

/-- Cross product (`glam::Vec3::cross`). -/
def Vec3.cross (a b : Vec3 α) : Vec3 α :=
  ⟨a.y * b.z - a.z * b.y, a.z * b.x - a.x * b.z, a.x * b.y - a.y * b.x⟩

/-- Squared length (`glam::Vec3::length_squared`). -/
def Vec3.lengthSq (a : Vec3 α) : α := a.x * a.x + a.y * a.y + a.z * a.z

/-- The zero vector (`glam::Vec3::ZERO`). -/
def Vec3.zero : Vec3 α := ⟨0, 0, 0⟩

/-- The all-ones vector (`glam::Vec3::ONE`). -/
def Vec3.one : Vec3 α := ⟨1, 1, 1⟩

instance : Add (Vec4 α) := ⟨fun a b => ⟨a.x + b.x, a.y + b.y, a.z + b.z, a.w + b.w⟩⟩

/-- Scalar multiple of a `Vec4` (glam's `Vec4 * f32`). -/
def Vec4.smul (a : Vec4 α) (s : α) : Vec4 α := ⟨a.x * s, a.y * s, a.z * s, a.w * s⟩

/-- Drop the `w` component (`glam::Vec4::truncate`). -/
def Vec4.truncate (a : Vec4 α) : Vec3 α := ⟨a.x, a.y, a.z⟩

/-- Squared length of a `Vec4` (`glam::Vec4::length_squared`). -/
def Vec4.lengthSq (a : Vec4 α) : α := a.x * a.x + a.y * a.y + a.z * a.z + a.w * a.w

/-- Identity quaternion (`glam::Quat::IDENTITY`). -/
def Quat.identity : Quat α := ⟨0, 0, 0, 1⟩

/-- Conjugate (`glam::Quat::conjugate`). -/
def Quat.conjugate (q : Quat α) : Quat α := ⟨-q.x, -q.y, -q.z, q.w⟩

/-- `glam::Quat::inverse`: for (assumed-normalized) quaternions glam returns
the conjugate; the release build carries no normalization check. -/
def Quat.inverse (q : Quat α) : Quat α := q.conjugate

/-- Quaternion dot product (`glam::Quat::dot`). -/
def Quat.dot (a b : Quat α) : α := a.x * b.x + a.y * b.y + a.z * b.z + a.w * b.w

/-- Squared norm of a quaternion. -/
def Quat.normSq (q : Quat α) : α := q.dot q

/-- Rotation action on a vector, modelling `glam::Quat::mul_vec3`
(the `Quat * Vec3` operator): `v * (w² − |b|²) + b * (v·b * 2) + (b × v) * (w * 2)`
with `b` the imaginary part. -/
def Quat.mulVec3 (q : Quat α) (v : Vec3 α) : Vec3 α :=
  let b : Vec3 α := ⟨q.x, q.y, q.z⟩
  let b2 : α := b.dot b
  v.smul (q.w * q.w - b2) + b.smul (v.dot b * 2) + (b.cross v).smul (q.w * 2)

/-- First rotation axis of a quaternion, from `glam` `Quat::to_axes`
(`Mat3/Mat4::from_quat` column 0), with `x2 = x + x` etc. expanded. -/
def Quat.toXAxis (q : Quat α) : Vec4 α :=
  ⟨1 - (2 * q.y * q.y + 2 * q.z * q.z), 2 * q.x * q.y + 2 * q.w * q.z,
    2 * q.x * q.z - 2 * q.w * q.y, 0⟩

/-- Second rotation axis of a quaternion (`Mat4::from_quat` column 1). -/
def Quat.toYAxis (q : Quat α) : Vec4 α :=
  ⟨2 * q.x * q.y - 2 * q.w * q.z, 1 - (2 * q.x * q.x + 2 * q.z * q.z),
    2 * q.y * q.z + 2 * q.w * q.x, 0⟩

/-- Third rotation axis of a quaternion (`Mat4::from_quat` column 2). -/
def Quat.toZAxis (q : Quat α) : Vec4 α :=
  ⟨2 * q.x * q.z + 2 * q.w * q.y, 2 * q.y * q.z - 2 * q.w * q.x,
    1 - (2 * q.x * q.x + 2 * q.y * q.y), 0⟩

/-! ## 4×4 matrices (from glam) -/

/-- Matrix–vector product (`glam::Mat4::mul_vec4`). -/
def Mat4.mulVec4 (m : Mat4 α) (v : Vec4 α) : Vec4 α :=
  m.xAxis.smul v.x + m.yAxis.smul v.y + m.zAxis.smul v.z + m.wAxis.smul v.w

/-- Matrix product (`glam::Mat4::mul_mat4`, i.e. `Mat4 * Mat4`). -/
def Mat4.mulMat4 (a b : Mat4 α) : Mat4 α :=
  ⟨a.mulVec4 b.xAxis, a.mulVec4 b.yAxis, a.mulVec4 b.zAxis, a.mulVec4 b.wAxis⟩

instance : Mul (Mat4 α) := ⟨Mat4.mulMat4⟩

/-- Identity matrix (`glam::Mat4::IDENTITY`). -/
def Mat4.identity : Mat4 α :=
  ⟨⟨1, 0, 0, 0⟩, ⟨0, 1, 0, 0⟩, ⟨0, 0, 1, 0⟩, ⟨0, 0, 0, 1⟩⟩

/-- `glam::Mat4::from_scale_rotation_translation`: the quaternion's axes,
each scaled by the matching scale component, with the translation in the
fourth column. -/
def Mat4.fromScaleRotationTranslation (s : Vec3 α) (q : Quat α) (t : Vec3 α) : Mat4 α :=
  ⟨(q.toXAxis).smul s.x, (q.toYAxis).smul s.y, (q.toZAxis).smul s.z, ⟨t.x, t.y, t.z, 1⟩⟩

/-- `glam::Mat4::from_translation`. -/
def Mat4.fromTranslation (t : Vec3 α) : Mat4 α :=
  ⟨⟨1, 0, 0, 0⟩, ⟨0, 1, 0, 0⟩, ⟨0, 0, 1, 0⟩, ⟨t.x, t.y, t.z, 1⟩⟩

/-- `glam::Mat4::from_quat`. -/
def Mat4.fromQuat (q : Quat α) : Mat4 α :=
  ⟨q.toXAxis, q.toYAxis, q.toZAxis, ⟨0, 0, 0, 1⟩⟩

/-- `glam::Mat4::from_scale`. -/
def Mat4.fromScale (s : Vec3 α) : Mat4 α :=
  ⟨⟨s.x, 0, 0, 0⟩, ⟨0, s.y, 0, 0⟩, ⟨0, 0, s.z, 0⟩, ⟨0, 0, 0, 1⟩⟩

/-- Transform a point (`glam::Mat4::transform_point3`): homogeneous
coordinate 1, translation applies. -/
def Mat4.transformPoint3 (m : Mat4 α) (p : Vec3 α) : Vec3 α :=
  (m.mulVec4 ⟨p.x, p.y, p.z, 1⟩).truncate

/-- Transform a vector (`glam::Mat4::transform_vector3`): homogeneous
coordinate 0, translation ignored. -/
def Mat4.transformVector3 (m : Mat4 α) (v : Vec3 α) : Vec3 α :=
  (m.mulVec4 ⟨v.x, v.y, v.z, 0⟩).truncate

/-- 4×4 determinant (`glam::Mat4::determinant`), cofactor expansion along
the first row of columns. -/
def Mat4.determinant (m : Mat4 α) : α :=
  let a00 := m.xAxis.x; let a01 := m.xAxis.y; let a02 := m.xAxis.z; let a03 := m.xAxis.w
  let a10 := m.yAxis.x; let a11 := m.yAxis.y; let a12 := m.yAxis.z; let a13 := m.yAxis.w
  let a20 := m.zAxis.x; let a21 := m.zAxis.y; let a22 := m.zAxis.z; let a23 := m.zAxis.w
  let a30 := m.wAxis.x; let a31 := m.wAxis.y; let a32 := m.wAxis.z; let a33 := m.wAxis.w
  a00 * (a11 * (a22 * a33 - a23 * a32) - a21 * (a12 * a33 - a13 * a32)
          + a31 * (a12 * a23 - a13 * a22))
    - a10 * (a01 * (a22 * a33 - a23 * a32) - a21 * (a02 * a33 - a03 * a32)
          + a31 * (a02 * a23 - a03 * a22))
    + a20 * (a01 * (a12 * a33 - a13 * a32) - a11 * (a02 * a33 - a03 * a32)
          + a31 * (a02 * a13 - a03 * a12))
    - a30 * (a01 * (a12 * a23 - a13 * a22) - a11 * (a02 * a23 - a03 * a22)
          + a21 * (a02 * a13 - a03 * a12))

/-! ## Transform (anvilkit-core/src/math/transform.rs) -/

/-- `Transform`: local translation / rotation / scale component. -/
structure Transform (α : Type) where
  translation : Vec3 α
  rotation : Quat α
  scale : Vec3 α
deriving DecidableEq

/-- `Transform::IDENTITY`. -/
def Transform.IDENTITY : Transform α := ⟨Vec3.zero, Quat.identity, Vec3.one⟩

/-- `Transform::new`. -/
def Transform.new (t : Vec3 α) (r : Quat α) (s : Vec3 α) : Transform α := ⟨t, r, s⟩

/-- `Transform::from_translation`. -/
def Transform.from_translation (t : Vec3 α) : Transform α := ⟨t, Quat.identity, Vec3.one⟩

/-- `Transform::from_rotation`. -/
def Transform.from_rotation (r : Quat α) : Transform α := ⟨Vec3.zero, r, Vec3.one⟩

/-- `Transform::from_scale`. -/
def Transform.from_scale (s : Vec3 α) : Transform α := ⟨Vec3.zero, Quat.identity, s⟩

/-- `Transform::from_xyz`. -/
def Transform.from_xyz (x y z : α) : Transform α := Transform.from_translation ⟨x, y, z⟩

/-- `Transform::compute_matrix`:
`Mat4::from_scale_rotation_translation(self.scale, self.rotation, self.translation)`. -/
def Transform.compute_matrix (t : Transform α) : Mat4 α :=
  Mat4.fromScaleRotationTranslation t.scale t.rotation t.translation

/-- `Transform::transform_point`. -/
def Transform.transform_point (t : Transform α) (p : Vec3 α) : Vec3 α :=
  t.compute_matrix.transformPoint3 p

/-- `Transform::transform_vector`. -/
def Transform.transform_vector (t : Transform α) (v : Vec3 α) : Vec3 α :=
  t.compute_matrix.transformVector3 v

/-- Machine epsilon of `f32`, exactly: `2⁻²³ = 1 / 8388608`. -/
def f32Eps (α : Type) [LinearOrderedField α] : α := 1 / 8388608

/-- `Transform::inverse`: error when a scale component's magnitude is below
machine epsilon, otherwise the componentwise-inverted transform
(reciprocal scale, conjugate rotation, back-rotated negated translation). -/
def Transform.inverse (t : Transform α) : Except String (Transform α) :=
  if |t.scale.x| < f32Eps α ∨ |t.scale.y| < f32Eps α ∨ |t.scale.z| < f32Eps α then
    Except.error ("cannot invert transform: scale contains a zero component")
  else
    let invScale : Vec3 α := ⟨1 / t.scale.x, 1 / t.scale.y, 1 / t.scale.z⟩
    let invRotation := t.rotation.inverse
    let invTranslation := -(invRotation.mulVec3 (t.translation * invScale))
    Except.ok ⟨invTranslation, invRotation, invScale⟩

/-! ## GlobalTransform (anvilkit-core/src/math/transform.rs) -/

/-- `GlobalTransform`: a wrapped world-space 4×4 matrix. -/
structure GlobalTransform (α : Type) where
  mat : Mat4 α
deriving DecidableEq

/-- `GlobalTransform::IDENTITY`. -/
def GlobalTransform.IDENTITY : GlobalTransform α := ⟨Mat4.identity⟩

/-- `GlobalTransform::from_matrix`. -/
def GlobalTransform.from_matrix (m : Mat4 α) : GlobalTransform α := ⟨m⟩

/-- `GlobalTransform::from_transform` (also the `From<Transform>` impl). -/
def GlobalTransform.from_transform (t : Transform α) : GlobalTransform α :=
  ⟨t.compute_matrix⟩

/-- `GlobalTransform::matrix`. -/
def GlobalTransform.matrix (g : GlobalTransform α) : Mat4 α := g.mat

/-- `GlobalTransform::translation`: direct read of the fourth column. -/
def GlobalTransform.translation (g : GlobalTransform α) : Vec3 α := g.mat.wAxis.truncate

/-- `GlobalTransform::mul_transform`: matrix product. -/
def GlobalTransform.mul_transform (a b : GlobalTransform α) : GlobalTransform α :=
  ⟨a.mat * b.mat⟩

/-- `GlobalTransform::transform_point`. -/
def GlobalTransform.transform_point (g : GlobalTransform α) (p : Vec3 α) : Vec3 α :=
  g.mat.transformPoint3 p

/-- `GlobalTransform::transform_vector`. -/
def GlobalTransform.transform_vector (g : GlobalTransform α) (v : Vec3 α) : Vec3 α :=
  g.mat.transformVector3 v

/-! ## Square-root-dependent operations, over `ℝ`

Exact-real model of the `f32` operations that involve `sqrt`.  In exact real
arithmetic no value is NaN or infinite, so the `is_finite` predicates of the
source are identically true; the degenerate inputs that produce NaN through
`0/0` in `f32` (normalizing a zero vector) here produce the zero vector,
which the source's companion `length_squared < EPSILON` checks catch. -/

/-- `glam::Vec3::length`. -/
noncomputable def Vec3.length (v : Vec3 ℝ) : ℝ := Real.sqrt v.lengthSq

/-- `glam::Vec3::normalize` (`self * self.length().recip()`). -/
noncomputable def Vec3.normalize (v : Vec3 ℝ) : Vec3 ℝ := v.smul (1 / v.length)

/-- `Vec3::is_finite`: identically true in the exact-real model. -/
def Vec3.is_finite (_ : Vec3 ℝ) : Prop := True

/-- `Quat::is_finite`: identically true in the exact-real model. -/
def Quat.is_finite (_ : Quat ℝ) : Prop := True

instance (v : Vec3 ℝ) : Decidable v.is_finite := Decidable.isTrue trivial

instance (q : Quat ℝ) : Decidable q.is_finite := Decidable.isTrue trivial

/-- `glam::Vec4::length`. -/
noncomputable def Vec4.length (v : Vec4 ℝ) : ℝ := Real.sqrt v.lengthSq

/-- `f32::signum` (for non-NaN input): `-1` for negatives, else `1`. -/
noncomputable def f32Signum (x : ℝ) : ℝ := if x < 0 then -1 else 1

/-- `glam::Quat::from_rotation_axes` (the worker behind `Quat::from_mat3`),
branching on the largest diagonal entry. -/
noncomputable def Quat.from_rotation_axes (xa ya za : Vec3 ℝ) : Quat ℝ :=
  let m00 := xa.x; let m01 := xa.y; let m02 := xa.z
  let m10 := ya.x; let m11 := ya.y; let m12 := ya.z
  let m20 := za.x; let m21 := za.y; let m22 := za.z
  if m22 ≤ 0 then
    let dif10 := m11 - m00
    let omm22 := 1 - m22
    if dif10 ≤ 0 then
      let fourXSq := omm22 - dif10
      let inv4x := (1 / 2) / Real.sqrt fourXSq
      ⟨fourXSq * inv4x, (m01 + m10) * inv4x, (m02 + m20) * inv4x, (m12 - m21) * inv4x⟩
    else
      let fourYSq := omm22 + dif10
      let inv4y := (1 / 2) / Real.sqrt fourYSq
      ⟨(m01 + m10) * inv4y, fourYSq * inv4y, (m12 + m21) * inv4y, (m20 - m02) * inv4y⟩
  else
    let sum10 := m11 + m00
    let opm22 := 1 + m22
    if sum10 ≤ 0 then
      let fourZSq := opm22 - sum10
      let inv4z := (1 / 2) / Real.sqrt fourZSq
      ⟨(m02 + m20) * inv4z, (m12 + m21) * inv4z, fourZSq * inv4z, (m01 - m10) * inv4z⟩
    else
      let fourWSq := opm22 + sum10
      let inv4w := (1 / 2) / Real.sqrt fourWSq
      ⟨(m12 - m21) * inv4w, (m20 - m02) * inv4w, (m01 - m10) * inv4w, fourWSq * inv4w⟩

/-- `glam::Mat4::to_scale_rotation_translation`: scale from column lengths
(sign of the determinant on x), rotation from the normalized columns,
translation from the fourth column. -/
noncomputable def Mat4.to_scale_rotation_translation (m : Mat4 ℝ) :
    Vec3 ℝ × Quat ℝ × Vec3 ℝ :=
  let det := m.determinant
  let scale : Vec3 ℝ := ⟨m.xAxis.length * f32Signum det, m.yAxis.length, m.zAxis.length⟩
  let invScale : Vec3 ℝ := ⟨1 / scale.x, 1 / scale.y, 1 / scale.z⟩
  let rotation := Quat.from_rotation_axes (m.xAxis.smul invScale.x).truncate
    (m.yAxis.smul invScale.y).truncate (m.zAxis.smul invScale.z).truncate
  (scale, rotation, m.wAxis.truncate)

/-- `Transform::from_matrix`: decompose and repackage. -/
noncomputable def Transform.from_matrix (m : Mat4 ℝ) : Transform ℝ :=
  let srt := m.to_scale_rotation_translation
  ⟨srt.2.2, srt.2.1, srt.1⟩

/-- `Transform::mul_transform`: multiply the two matrices and decompose. -/
noncomputable def Transform.mul_transform (a b : Transform ℝ) : Transform ℝ :=
  Transform.from_matrix (a.compute_matrix * b.compute_matrix)

/-- `Transform::looking_at`, with the source's four validity checks. -/
noncomputable def Transform.looking_at (eye target up : Vec3 ℝ) :
    Except String (Transform ℝ) :=
  let forward := (target - eye).normalize
  if ¬forward.is_finite ∨ forward.lengthSq < f32Eps ℝ then
    Except.error ("invalid forward vector: target equals eye or not finite")
  else
    let right := (forward.cross up).normalize
    if ¬right.is_finite ∨ right.lengthSq < f32Eps ℝ then
      Except.error ("invalid up vector: parallel to the forward vector")
    else
      let up2 := right.cross forward
      if ¬up2.is_finite then
        Except.error ("numeric error computing the up vector")
      else
        let rotation := Quat.from_rotation_axes right up2 (-forward)
        if ¬rotation.is_finite then
          Except.error ("numeric error computing the rotation quaternion")
        else
          Except.ok (Transform.new eye rotation Vec3.one)

/-! ## ECS hierarchy layer (anvilkit-ecs/src/transform.rs)

The bevy_ecs store is modelled as association lists keyed by entity id.
Change detection follows bevy's tick scheme: every component write records
the writing system's run tick, each system keeps the tick of its previous
run (`lastRun`), and `Changed<T>` holds exactly when the component's tick
is strictly newer than `lastRun`.  Scalars are `ℚ` so that every operation
here is executable. -/

/-- Entity identifier (bevy `Entity`), modelled as a natural number. -/
abbrev Entity := Nat

/-- `Parent` component: reference to the parent entity. -/
structure Parent where
  entity : Entity
deriving DecidableEq

/-- `Parent::new`. -/
def Parent.new (e : Entity) : Parent := ⟨e⟩

/-- `Parent::get`. -/
def Parent.get (p : Parent) : Entity := p.entity

/-- `Parent::set` (returns the updated component). -/
def Parent.set (_ : Parent) (e : Entity) : Parent := ⟨e⟩

/-- `Children` component: ordered list of child entity ids. -/
structure Children where
  children : List Entity
deriving DecidableEq

/-- `Children::new`: stores the given vector verbatim. -/
def Children.new (cs : List Entity) : Children := ⟨cs⟩

/-- `Children::empty`. -/
def Children.empty : Children := ⟨[]⟩

/-- `Children::iter`: iteration order is the stored order. -/
def Children.iter (c : Children) : List Entity := c.children

/-- `Children::len`. -/
def Children.len (c : Children) : Nat := c.children.length

/-- `Children::is_empty`. -/
def Children.is_empty (c : Children) : Bool := c.children.isEmpty

/-- `Children::contains`. -/
def Children.contains (c : Children) (e : Entity) : Bool := c.children.contains e

/-- `Children::push`: appends unless already present. -/
def Children.push (c : Children) (e : Entity) : Children :=
  if c.children.contains e then c else ⟨c.children ++ [e]⟩

/-- `Children::remove`: `retain(|x| x != entity)`. -/
def Children.remove (c : Children) (e : Entity) : Children :=
  ⟨c.children.filter (fun x => x != e)⟩

/-- `Children::clear`. -/
def Children.clear (_ : Children) : Children := ⟨[]⟩

/-- `Children::first`. -/
def Children.first (c : Children) : Option Entity := c.children.head?

/-- `Children::last`. -/
def Children.last (c : Children) : Option Entity := c.children.getLast?

/-- The `From<Vec<Entity>>` impl for `Children`. -/
def Children.fromVec (cs : List Entity) : Children := Children.new cs

/-- The slice of a bevy `World` that the transform systems touch:
per-entity `Transform` (with change tick), `GlobalTransform` (with change
tick), `Parent`, and `Children` storages. -/
structure ECSWorld where
  transforms : List (Entity × Transform ℚ × Nat)
  globals : List (Entity × GlobalTransform ℚ × Nat)
  parents : List (Entity × Parent)
  childrenOf : List (Entity × Children)
deriving DecidableEq

/-- Association-list lookup (bevy `World::get` / `Query::get`). -/
def findEntry {β : Type} : List (Entity × β) → Entity → Option β
  | [], _ => none
  | (k, v) :: rest, e => if e = k then some v else findEntry rest e

/-- Insert or replace a component (bevy `EntityCommands::insert` /
`try_insert`, both of which overwrite an existing component). -/
def upsert {β : Type} (l : List (Entity × β)) (e : Entity) (v : β) : List (Entity × β) :=
  if (findEntry l e).isSome then l.map (fun kv => if kv.1 = e then (e, v) else kv)
  else l ++ [(e, v)]

/-- Write an entity's `GlobalTransform` through a `Mut`, recording the
writing system's tick (the entity is present whenever this is called). -/
def ECSWorld.setGlobal (w : ECSWorld) (e : Entity) (g : GlobalTransform ℚ) (tick : Nat) :
    ECSWorld :=
  { w with globals := w.globals.map (fun kv => if kv.1 = e then (e, g, tick) else kv) }

/-- `sync_simple_transforms`: for every entity with a changed `Transform`,
a `GlobalTransform` and no `Parent`, copy the local transform into the
global one. -/
def sync_simple_transforms (w : ECSWorld) (lastRun cur : Nat) : ECSWorld :=
  { w with globals := w.globals.map (fun g =>
      match findEntry w.transforms g.1 with
      | some tv =>
        if lastRun < tv.2 ∧ findEntry w.parents g.1 = none then
          (g.1, GlobalTransform.from_transform tv.1, cur)
        else g
      | none => g) }

/-- The child loop of `propagate_recursive`: for each child that matches
`transform_query` (has `Transform`, `GlobalTransform` and `Parent`), write
`parent_global.mul_transform(child local)` into its `GlobalTransform`, and
collect `(new_global, grandchildren)` for the children that have their own
`Children` component, in order. -/
def propagate_children (parentGlobal : GlobalTransform ℚ) :
    List Entity → ECSWorld → Nat → ECSWorld × List (GlobalTransform ℚ × Children)
  | [], w, _ => (w, [])
  | c :: rest, w, cur =>
    match findEntry w.transforms c, findEntry w.globals c, findEntry w.parents c with
    | some tv, some _, some _ =>
      let newG := parentGlobal.mul_transform (GlobalTransform.from_transform tv.1)
      let w1 := w.setGlobal c newG cur
      let res := propagate_children parentGlobal rest w1 cur
      match findEntry w1.childrenOf c with
      | some cc => (res.1, (newG, cc) :: res.2)
      | none => res
    | _, _, _ => propagate_children parentGlobal rest w cur

/-- `propagate_recursive`, with an explicit recursion-depth fuel: the Rust
function recurses unboundedly, so `none` records that the given depth was
exhausted.  (The source's `children_query` parameter is dead: it is only
ever passed along, never read.) -/
def propagate_recursive :
    Nat → GlobalTransform ℚ → Children → ECSWorld → Nat → Option ECSWorld
  | 0, _, _, _, _ => none
  | fuel + 1, pg, children, w, cur =>
    let res := propagate_children pg children.children w cur
    res.2.foldl
      (fun acc pr => acc.bind (fun w2 => propagate_recursive fuel pr.1 pr.2 w2 cur))
      (some res.1)

/-- `propagate_transforms`: for every root (has `Children` and a changed
`GlobalTransform`, no `Parent`) start a recursive descent.  The source's
inner `is_changed` test repeats the query filter and is folded into the
root filter here. -/
def propagate_transforms (fuel : Nat) (w : ECSWorld) (lastRun cur : Nat) :
    Option ECSWorld :=
  let roots := w.childrenOf.filterMap (fun ec =>
    match findEntry w.globals ec.1, findEntry w.parents ec.1 with
    | some g, none => if lastRun < g.2 then some (g.1, ec.2) else none
    | _, _ => none)
  roots.foldl
    (fun acc r => acc.bind (fun w2 => propagate_recursive fuel r.1 r.2 w2 cur))
    (some w)

/-- One run of the `TransformPlugin` system pair
(`sync_simple_transforms` then `propagate_transforms`, chained): `syncLast`
and `propLast` are the systems' previous run ticks, `curSync` and `curProp`
the ticks at which they run now. -/
def run_transform_systems (fuel : Nat) (w : ECSWorld)
    (syncLast propLast curSync curProp : Nat) : Option ECSWorld :=
  propagate_transforms fuel (sync_simple_transforms w syncLast curSync) propLast curProp

/-- `TransformHierarchy::set_parent`: the two queued commands, applied as a
unit: `insert(Parent::new(parent))` on the child and
`try_insert(Children::empty())` on the parent (bevy's `try_insert`
overwrites an existing component just like `insert`; it only tolerates a
despawned entity). -/
def TransformHierarchy.set_parent (w : ECSWorld) (child parent : Entity) : ECSWorld :=
  { w with
    parents := upsert w.parents child (Parent.new parent),
    childrenOf := upsert w.childrenOf parent Children.empty }

/-- `TransformHierarchy::remove_parent`. -/
def TransformHierarchy.remove_parent (w : ECSWorld) (child : Entity) : ECSWorld :=
  { w with parents := w.parents.filter (fun kv => kv.1 != child) }

/-- `TransformHierarchy::get_ancestors`, with recursion-depth fuel (the
Rust loop follows `Parent` references unboundedly). -/
def TransformHierarchy.get_ancestors : Nat → ECSWorld → Entity → Option (List Entity)
  | 0, _, _ => none
  | fuel + 1, w, e =>
    match findEntry w.parents e with
    | none => some []
    | some p => (TransformHierarchy.get_ancestors fuel w p.get).map (fun l => p.get :: l)

/-- `TransformHierarchy::get_descendants`, with recursion-depth fuel. -/
def TransformHierarchy.get_descendants : Nat → ECSWorld → Entity → Option (List Entity)
  | 0, _, _ => none
  | fuel + 1, w, e =>
    match findEntry w.childrenOf e with
    | none => some []
    | some cs => cs.children.foldl
        (fun acc c => acc.bind (fun l =>
          (TransformHierarchy.get_descendants fuel w c).map (fun ds => l ++ c :: ds)))
        (some [])

/-! ## Predicates used by the claims -/

/-- Whether an `Except` value is the error case. -/
def exceptIsErr {ε β : Type} : Except ε β → Bool
  | Except.error _ => true
  | Except.ok _ => false

/-- All `Transform` change ticks are at most `m`. -/
def TransTicksLe (w : ECSWorld) (m : Nat) : Prop :=
  ∀ x ∈ w.transforms, x.2.2 ≤ m

/-- All `GlobalTransform` change ticks are at most `m`. -/
def GlobalTicksLe (w : ECSWorld) (m : Nat) : Prop :=
  ∀ x ∈ w.globals, x.2.2 ≤ m

/-- The step relation followed by `get_ancestors`: `a`'s `Parent` component
points at `b`. -/
def parentEdge (w : ECSWorld) (a b : Entity) : Prop :=
  ∃ p, findEntry w.parents a = some p ∧ p.get = b

/-- The step relation followed by `get_descendants`: `b` is listed in `a`'s
`Children` component. -/
def childEdge (w : ECSWorld) (a b : Entity) : Prop :=
  ∃ cs, findEntry w.childrenOf a = some cs ∧ b ∈ cs.children

/-- Membership in `propagate_recursive`'s `transform_query`: the entity has
`Transform`, `GlobalTransform` and `Parent` components. -/
def inTransformQuery (w : ECSWorld) (e : Entity) : Prop :=
  (findEntry w.transforms e).isSome ∧ (findEntry w.globals e).isSome ∧
    (findEntry w.parents e).isSome

/-- The step relation along which `propagate_recursive` actually recurses:
a child edge into an entity that matches `transform_query` and has its own
`Children` component. -/
def propEdge (w : ECSWorld) (a b : Entity) : Prop :=
  childEdge w a b ∧ inTransformQuery w b ∧ (findEntry w.childrenOf b).isSome

/-- A relation has no cycle anywhere: no non-empty chain returns to its
start. -/
def RelAcyclic (R : Entity → Entity → Prop) : Prop :=
  ∀ x l, ¬ List.Chain R x (l ++ [x])

/-- Some entity on a cycle of `R` is reachable from `e` (possibly `e`
itself). -/
def RelCycleFrom (R : Entity → Entity → Prop) (e : Entity) : Prop :=
  ∃ x, (x = e ∨ ∃ l, List.Chain R e (l ++ [x])) ∧ ∃ l2, List.Chain R x (l2 ++ [x])

/-- `get_ancestors` terminates on `e`: some recursion depth suffices. -/
def ancestorsTerminate (w : ECSWorld) (e : Entity) : Prop :=
  ∃ fuel, (TransformHierarchy.get_ancestors fuel w e).isSome

/-- `get_descendants` terminates on `e`. -/
def descendantsTerminate (w : ECSWorld) (e : Entity) : Prop :=
  ∃ fuel, (TransformHierarchy.get_descendants fuel w e).isSome

/-- `propagate_recursive` terminates on the given children list. -/
def propagateTerminates (w : ECSWorld) (cs : Children)
    (pg : GlobalTransform ℚ) (cur : Nat) : Prop :=
  ∃ fuel, (propagate_recursive fuel pg cs w cur).isSome

/-- Two worlds with the same hierarchy skeleton: identical component key
sets for `Transform`/`GlobalTransform` and identical `Parent`/`Children`
storages (only `GlobalTransform` values and ticks may differ). -/
def hierEq (a b : ECSWorld) : Prop :=
  a.transforms = b.transforms ∧
  a.globals.map (fun kv => kv.1) = b.globals.map (fun kv => kv.1) ∧
  a.parents = b.parents ∧ a.childrenOf = b.childrenOf

/-! ## Unfolding lemmas for the operator instances -/

theorem Vec3.add_def (a b : Vec3 α) : a + b = ⟨a.x + b.x, a.y + b.y, a.z + b.z⟩ := rfl

theorem Vec3.sub_def (a b : Vec3 α) : a - b = ⟨a.x - b.x, a.y - b.y, a.z - b.z⟩ := rfl

theorem Vec3.neg_def (a : Vec3 α) : -a = ⟨-a.x, -a.y, -a.z⟩ := rfl

theorem Vec3.mul_def (a b : Vec3 α) : a * b = ⟨a.x * b.x, a.y * b.y, a.z * b.z⟩ := rfl

theorem Vec4.add4_def (a b : Vec4 α) : a + b = ⟨a.x + b.x, a.y + b.y, a.z + b.z, a.w + b.w⟩ := rfl

theorem Mat4.mul4_def (a b : Mat4 α) : a * b = a.mulMat4 b := rfl

/-! ## C9 / C10: the `Children` collection -/

/-- C9: `Children::push` is a no-op when the entity is already present and
otherwise appends it at the end; `Children::remove` deletes every
occurrence of the entity by value while keeping the remaining children in
their relative order (a sublist, with untouched multiplicities); and
`push` never introduces a duplicate. -/
theorem children_push_remove_spec (c : Children) (e : Entity) :
    (c.contains e = true → c.push e = c) ∧
    (c.contains e = false → (c.push e).children = c.children ++ [e]) ∧
    (c.remove e).children.count e = 0 ∧
    List.Sublist (c.remove e).children c.children ∧
    (∀ x, x ≠ e → (c.remove e).children.count x = c.children.count x) ∧
    (c.children.Nodup → (c.push e).children.Nodup) := by
  refine ⟨?_, ?_, ?_, ?_, ?_, ?_⟩
  · intro h
    simp only [Children.contains] at h
    simp only [Children.push, h, if_true]
  · intro h
    have h' : e ∉ c.children := by simpa [Children.contains] using h
    simp [Children.push, h']
  · simp [Children.remove, List.count_eq_zero, List.mem_filter]
  · exact List.filter_sublist c.children
  · intro x hx
    simp only [Children.remove]
    rw [List.count_filter]
    simp [hx]
  · intro hn
    by_cases h : e ∈ c.children
    · simp [Children.push, h, hn]
    · simp [Children.push, h, List.nodup_append, hn]

/-- Witness for `children_push_remove_spec` at concrete lists. -/
theorem children_push_remove_spec_witness :
    (Children.new [1, 2]).contains 3 = false ∧
    ((Children.new [1, 2]).push 3).children = [1, 2, 3] ∧
    (Children.new [1, 2]).contains 2 = true ∧
    (Children.new [1, 2]).push 2 = Children.new [1, 2] ∧
    ([1, 2] : List Entity).Nodup ∧ ((Children.new [1, 2]).push 3).children.Nodup :=
  ⟨by decide, (children_push_remove_spec (Children.new [1, 2]) 3).2.1 (by decide),
    by decide, (children_push_remove_spec (Children.new [1, 2]) 2).1 (by decide),
    by decide, (children_push_remove_spec (Children.new [1, 2]) 3).2.2.2.2.2 (by decide)⟩

/-- C10: `Children::new` and `From<Vec<Entity>>` store the given vector
verbatim: length and iteration order are those of the input, and no
deduplication happens — the duplicate list `[7, 7]` is stored as is. -/
theorem children_new_verbatim (v : List Entity) :
    (Children.new v).len = v.length ∧ (Children.new v).iter = v ∧
    Children.fromVec v = Children.new v ∧
    (Children.new [7, 7]).len = 2 ∧ (Children.new [7, 7]).iter = [7, 7] :=
  ⟨rfl, rfl, rfl, rfl, rfl⟩

/-! ## C2: `set_parent` never links the child into the parent's set -/

/-- C2 evaluated at its failing input: applying the two commands queued by
`TransformHierarchy::set_parent(child 1, parent 0)` to an empty world
attaches `Parent(0)` to entity 1 but inserts only an *empty* `Children`
component on entity 0 — the child is never added to the parent's set.  On
a world where the parent already has children, the queued `try_insert`
even overwrites them with the empty set. -/
theorem set_parent_leaves_children_empty :
    findEntry (TransformHierarchy.set_parent ⟨[], [], [], []⟩ 1 0).parents 1 =
      some (Parent.new 0) ∧
    findEntry (TransformHierarchy.set_parent ⟨[], [], [], []⟩ 1 0).childrenOf 0 =
      some Children.empty ∧
    Children.empty.contains 1 = false ∧
    (TransformHierarchy.set_parent ⟨[], [], [], [(0, Children.new [5])]⟩ 1 0).childrenOf =
      [(0, Children.empty)] := by decide

/-! ## C4: error behaviour of `Transform::inverse` -/

/-- `Transform::inverse` errors exactly when the scale test in its guard
holds. -/
theorem transform_inverse_isErr_iff (t : Transform ℚ) :
    exceptIsErr t.inverse = true ↔
      (|t.scale.x| < f32Eps ℚ ∨ |t.scale.y| < f32Eps ℚ ∨ |t.scale.z| < f32Eps ℚ) := by
  unfold Transform.inverse
  split
  · next h => simpa [exceptIsErr] using h
  · next h => simpa [exceptIsErr] using h

/-- C4: `Transform::inverse` returns an error if and only if some scale
component's magnitude is below `f32::EPSILON`; in particular the transform
with scale `(0, 1, 1)` is rejected.  (The Rust method takes `&self`; the
embedding is a pure function of the value, so the input is never
mutated.) -/
theorem transform_inverse_error_spec (t : Transform ℚ) :
    (exceptIsErr t.inverse = true ↔
      (|t.scale.x| < f32Eps ℚ ∨ |t.scale.y| < f32Eps ℚ ∨ |t.scale.z| < f32Eps ℚ)) ∧
    exceptIsErr (Transform.from_scale (⟨0, 1, 1⟩ : Vec3 ℚ)).inverse = true :=
  ⟨transform_inverse_isErr_iff t,
    (transform_inverse_isErr_iff _).mpr (Or.inl (by norm_num [Transform.from_scale, f32Eps]))⟩

/-! ## C3: propagation composes parent world transform with child local -/

/-- C3: in a two-entity world with root `r` (no parent, children `[c]`) and
child `c` (parent `r`), where `r`'s `Transform` is marked changed, running
`sync_simple_transforms` then `propagate_transforms` writes
`GlobalTransform::from_transform(tR)` into `r` and
`r`'s new global composed with `GlobalTransform::from_transform` of `c`'s
local transform into `c` — for arbitrary local transforms and an arbitrary
change tick on `c`, i.e. even when `c`'s own `Transform` did not change. -/
theorem propagation_parent_child (r c : Entity) (hrc : c ≠ r)
    (tR tC : Transform ℚ) (gR gC : GlobalTransform ℚ)
    (tkr tkc gkr gkc syncLast propLast curSync curProp fuel : Nat)
    (hchanged : syncLast < tkr) (hseen : propLast < curSync) :
    run_transform_systems (fuel + 1)
      ⟨[(r, tR, tkr), (c, tC, tkc)], [(r, gR, gkr), (c, gC, gkc)],
        [(c, Parent.new r)], [(r, Children.new [c])]⟩
      syncLast propLast curSync curProp =
    some ⟨[(r, tR, tkr), (c, tC, tkc)],
      [(r, GlobalTransform.from_transform tR, curSync),
       (c, (GlobalTransform.from_transform tR).mul_transform
             (GlobalTransform.from_transform tC), curProp)],
      [(c, Parent.new r)], [(r, Children.new [c])]⟩ := by
  have hcr : ¬ (c = r) := hrc
  have hrc' : ¬ (r = c) := fun h => hrc h.symm
  simp [run_transform_systems, sync_simple_transforms, propagate_transforms,
    propagate_recursive, propagate_children, ECSWorld.setGlobal, findEntry,
    hcr, hrc', hchanged, hseen, Children.new]

/-- Witness for `propagation_parent_child`: root at translation (1,0,0),
child at (0,1,0); after the pass the child's world translation is
(1,1,0). -/
theorem propagation_parent_child_witness :
    run_transform_systems 1
      ⟨[(0, Transform.from_xyz 1 0 0, 1), (1, Transform.from_xyz 0 1 0, 1)],
       [(0, GlobalTransform.IDENTITY, 0), (1, GlobalTransform.IDENTITY, 0)],
       [(1, Parent.new 0)], [(0, Children.new [1])]⟩ 0 0 1 2 =
      some ⟨[(0, Transform.from_xyz 1 0 0, 1), (1, Transform.from_xyz 0 1 0, 1)],
       [(0, GlobalTransform.from_transform (Transform.from_xyz 1 0 0), 1),
        (1, (GlobalTransform.from_transform (Transform.from_xyz 1 0 0)).mul_transform
              (GlobalTransform.from_transform (Transform.from_xyz 0 1 0)), 2)],
       [(1, Parent.new 0)], [(0, Children.new [1])]⟩ ∧
    GlobalTransform.translation
      ((GlobalTransform.from_transform (Transform.from_xyz (1 : ℚ) 0 0)).mul_transform
        (GlobalTransform.from_transform (Transform.from_xyz 0 1 0))) = ⟨1, 1, 0⟩ := by
  constructor
  · exact propagation_parent_child 0 1 (by decide)
      (Transform.from_xyz 1 0 0) (Transform.from_xyz 0 1 0)
      GlobalTransform.IDENTITY GlobalTransform.IDENTITY
      1 1 0 0 0 0 1 2 0 (by decide) (by decide)
  · simp only [GlobalTransform.translation, GlobalTransform.mul_transform,
      GlobalTransform.from_transform, Transform.compute_matrix, Transform.from_xyz,
      Transform.from_translation, Mat4.fromScaleRotationTranslation, Quat.toXAxis,
      Quat.toYAxis, Quat.toZAxis, Quat.identity, Vec3.one, Vec4.smul, Vec4.truncate,
      Mat4.mul4_def, Mat4.mulMat4, Mat4.mulVec4, Vec4.add4_def]
    norm_num

/-! ## C7: running the system pair twice is idempotent -/

theorem findEntry_mem {β : Type} :
    ∀ (l : List (Entity × β)) (e : Entity) (v : β), findEntry l e = some v → (e, v) ∈ l := by
  intro l
  induction l with
  | nil => intro e v h; simp [findEntry] at h
  | cons kv rest ih =>
    intro e v h
    rcases kv with ⟨k, v'⟩
    rw [findEntry] at h
    split at h
    · next heq =>
      cases h
      subst heq
      exact List.mem_cons_self _ _
    · exact List.mem_cons_of_mem _ (ih e v h)

theorem list_map_self {β : Type} (l : List β) (f : β → β) (h : ∀ x ∈ l, f x = x) :
    l.map f = l := by
  induction l with
  | nil => rfl
  | cons a t ih =>
    simp only [List.map_cons, h a (List.mem_cons_self a t)]
    rw [ih (fun x hx => h x (List.mem_cons_of_mem a hx))]

theorem setGlobal_keys (w : ECSWorld) (e : Entity) (g : GlobalTransform ℚ) (tick : Nat) :
    (w.setGlobal e g tick).globals.map (fun kv => kv.1) = w.globals.map (fun kv => kv.1) := by
  simp only [ECSWorld.setGlobal, List.map_map]
  apply List.map_congr_left
  intro kv _
  by_cases h : kv.1 = e
  · simp [Function.comp, h]
  · simp [Function.comp, h]

theorem sync_transforms_eq (w : ECSWorld) (a b : Nat) :
    (sync_simple_transforms w a b).transforms = w.transforms := rfl

theorem sync_parents_eq (w : ECSWorld) (a b : Nat) :
    (sync_simple_transforms w a b).parents = w.parents := rfl

theorem sync_childrenOf_eq (w : ECSWorld) (a b : Nat) :
    (sync_simple_transforms w a b).childrenOf = w.childrenOf := rfl

/-- If nothing changed since `lastRun`, `sync_simple_transforms` writes
nothing. -/
theorem sync_noop (w : ECSWorld) (lastRun cur : Nat) (h : TransTicksLe w lastRun) :
    sync_simple_transforms w lastRun cur = w := by
  unfold sync_simple_transforms
  cases w with
  | mk ts gs ps cs =>
    simp only [ECSWorld.mk.injEq]
    refine ⟨trivial, ?_, trivial, trivial⟩
    apply list_map_self
    intro g hg
    cases hfind : findEntry ts g.1 with
    | none => simp
    | some tv =>
      have hmem := findEntry_mem ts g.1 tv hfind
      have hle : tv.2 ≤ lastRun := h (g.1, tv) hmem
      dsimp only
      rw [if_neg]
      rintro ⟨h1, -⟩
      omega

theorem sync_globalTicks (w : ECSWorld) (lastRun cur m : Nat)
    (hg : GlobalTicksLe w m) (hc : cur ≤ m) :
    GlobalTicksLe (sync_simple_transforms w lastRun cur) m := by
  intro x hx
  unfold sync_simple_transforms at hx
  simp only [List.mem_map] at hx
  rcases hx with ⟨g, hgmem, rfl⟩
  cases hfind : findEntry w.transforms g.1 with
  | none => simp only [hfind]; exact hg g hgmem
  | some tv =>
    simp only [hfind]
    split
    · exact hc
    · exact hg g hgmem

theorem propagate_children_fields (pg : GlobalTransform ℚ) :
    ∀ (cs : List Entity) (w : ECSWorld) (cur : Nat),
      (propagate_children pg cs w cur).1.transforms = w.transforms ∧
      (propagate_children pg cs w cur).1.parents = w.parents ∧
      (propagate_children pg cs w cur).1.childrenOf = w.childrenOf ∧
      (propagate_children pg cs w cur).1.globals.map (fun kv => kv.1) =
        w.globals.map (fun kv => kv.1) := by
  intro cs
  induction cs with
  | nil => intro w cur; exact ⟨rfl, rfl, rfl, rfl⟩
  | cons c rest ih =>
    intro w cur
    rw [propagate_children]
    split
    · next tv u1 u2 heq1 heq2 heq3 =>
      dsimp only
      split
      · next cc hcc =>
        have h2 := ih (w.setGlobal c
          (pg.mul_transform (GlobalTransform.from_transform tv.1)) cur) cur
        refine ⟨h2.1, h2.2.1, h2.2.2.1, ?_⟩
        rw [h2.2.2.2, setGlobal_keys]
      · have h2 := ih (w.setGlobal c
          (pg.mul_transform (GlobalTransform.from_transform tv.1)) cur) cur
        refine ⟨h2.1, h2.2.1, h2.2.2.1, ?_⟩
        rw [h2.2.2.2, setGlobal_keys]
    · exact ih w cur

theorem setGlobal_ticks (w : ECSWorld) (e : Entity) (g : GlobalTransform ℚ)
    (tick m : Nat) (hw : GlobalTicksLe w m) (ht : tick ≤ m) :
    GlobalTicksLe (w.setGlobal e g tick) m := by
  intro x hx
  simp only [ECSWorld.setGlobal, List.mem_map] at hx
  rcases hx with ⟨kv, hmem, rfl⟩
  by_cases h : kv.1 = e
  · simpa [h] using ht
  · simpa [h] using hw kv hmem

theorem propagate_children_ticks (pg : GlobalTransform ℚ) :
    ∀ (cs : List Entity) (w : ECSWorld) (cur m : Nat),
      GlobalTicksLe w m → cur ≤ m →
      GlobalTicksLe (propagate_children pg cs w cur).1 m := by
  intro cs
  induction cs with
  | nil => intro w cur m hw _; exact hw
  | cons c rest ih =>
    intro w cur m hw hc
    rw [propagate_children]
    split
    · next tv u1 u2 heq1 heq2 heq3 =>
      dsimp only
      split
      · exact ih _ cur m (setGlobal_ticks w c _ cur m hw hc) hc
      · exact ih _ cur m (setGlobal_ticks w c _ cur m hw hc) hc
    · exact ih w cur m hw hc

theorem foldl_bind_none {β : Type} (f : ECSWorld → β → Option ECSWorld) :
    ∀ (l : List β), l.foldl (fun acc b => acc.bind (fun x => f x b)) none = none := by
  intro l
  induction l with
  | nil => rfl
  | cons b rest ih => simpa using ih

theorem foldl_bind_preserve {β : Type} (f : ECSWorld → β → Option ECSWorld)
    (P : ECSWorld → Prop) (hf : ∀ x b y, P x → f x b = some y → P y) :
    ∀ (l : List β) (w w' : ECSWorld), P w →
      l.foldl (fun acc b => acc.bind (fun x => f x b)) (some w) = some w' → P w' := by
  intro l
  induction l with
  | nil => intro w w' hw h; cases h; exact hw
  | cons b rest ih =>
    intro w w' hw h
    rw [List.foldl_cons] at h
    cases hfb : f w b with
    | none =>
      simp only [Option.some_bind, hfb] at h
      rw [foldl_bind_none] at h
      cases h
    | some w1 =>
      simp only [Option.some_bind, hfb] at h
      exact ih w1 w' (hf w b w1 hw hfb) h

theorem propagate_recursive_preserve (m : Nat) :
    ∀ (fuel : Nat) (pg : GlobalTransform ℚ) (cc : Children) (w : ECSWorld)
      (cur : Nat) (w' : ECSWorld),
      propagate_recursive fuel pg cc w cur = some w' → cur ≤ m → GlobalTicksLe w m →
      ((w'.transforms = w.transforms ∧ w'.parents = w.parents ∧
        w'.childrenOf = w.childrenOf ∧
        w'.globals.map (fun kv => kv.1) = w.globals.map (fun kv => kv.1)) ∧
       GlobalTicksLe w' m) := by
  intro fuel
  induction fuel with
  | zero =>
    intro pg cc w cur w' h
    simp [propagate_recursive] at h
  | succ fuel ih =>
    intro pg cc w cur w' h hc hw
    rw [propagate_recursive] at h
    refine foldl_bind_preserve
      (fun (x : ECSWorld) (pr : GlobalTransform ℚ × Children) =>
        propagate_recursive fuel pr.1 pr.2 x cur)
      (fun x => (x.transforms = w.transforms ∧ x.parents = w.parents ∧
        x.childrenOf = w.childrenOf ∧
        x.globals.map (fun kv => kv.1) = w.globals.map (fun kv => kv.1)) ∧
        GlobalTicksLe x m) ?_ _ _ w' ?_ h
    · intro x pr y hx hstep
      have h2 := ih pr.1 pr.2 x cur y hstep hc hx.2
      exact ⟨⟨h2.1.1.trans hx.1.1, h2.1.2.1.trans hx.1.2.1,
        h2.1.2.2.1.trans hx.1.2.2.1, h2.1.2.2.2.trans hx.1.2.2.2⟩, h2.2⟩
    · have hf := propagate_children_fields pg cc.children w cur
      exact ⟨⟨hf.1, hf.2.1, hf.2.2.1, hf.2.2.2⟩,
        propagate_children_ticks pg cc.children w cur m hw hc⟩

theorem propagate_transforms_preserve (m fuel lastRun cur : Nat) (w w' : ECSWorld)
    (h : propagate_transforms fuel w lastRun cur = some w') (hc : cur ≤ m)
    (hw : GlobalTicksLe w m) :
    (w'.transforms = w.transforms ∧ w'.parents = w.parents ∧
      w'.childrenOf = w.childrenOf ∧
      w'.globals.map (fun kv => kv.1) = w.globals.map (fun kv => kv.1)) ∧
    GlobalTicksLe w' m := by
  unfold propagate_transforms at h
  refine foldl_bind_preserve
    (fun (x : ECSWorld) (r : GlobalTransform ℚ × Children) =>
      propagate_recursive fuel r.1 r.2 x cur)
    (fun x => (x.transforms = w.transforms ∧ x.parents = w.parents ∧
      x.childrenOf = w.childrenOf ∧
      x.globals.map (fun kv => kv.1) = w.globals.map (fun kv => kv.1)) ∧
      GlobalTicksLe x m) ?_ _ _ w' ⟨⟨rfl, rfl, rfl, rfl⟩, hw⟩ h
  intro x r y hx hstep
  have h2 := propagate_recursive_preserve m fuel r.1 r.2 x cur y hstep hc hx.2
  exact ⟨⟨h2.1.1.trans hx.1.1, h2.1.2.1.trans hx.1.2.1,
    h2.1.2.2.1.trans hx.1.2.2.1, h2.1.2.2.2.trans hx.1.2.2.2⟩, h2.2⟩

/-- If no `GlobalTransform` changed since `lastRun`, `propagate_transforms`
selects no root and returns the world unchanged, at any recursion depth. -/
theorem propagate_transforms_noop (fuel : Nat) (w : ECSWorld) (lastRun cur : Nat)
    (h : GlobalTicksLe w lastRun) : propagate_transforms fuel w lastRun cur = some w := by
  unfold propagate_transforms
  have hnil : w.childrenOf.filterMap (fun ec =>
      match findEntry w.globals ec.1, findEntry w.parents ec.1 with
      | some g, none => if lastRun < g.2 then some (g.1, ec.2) else none
      | _, _ => none) = [] := by
    rw [List.filterMap_eq_nil_iff]
    intro ec _
    cases hg : findEntry w.globals ec.1 with
    | none => rfl
    | some g =>
      cases hp : findEntry w.parents ec.1 with
      | none =>
        have hle : g.2 ≤ lastRun := h (ec.1, g) (findEntry_mem _ _ _ hg)
        dsimp only
        rw [if_neg]
        omega
      | some p => rfl
  rw [hnil]
  rfl

/-- C7: running the `sync_simple_transforms` / `propagate_transforms` pair
a second time with no intervening mutation returns the world of the first
run unchanged — every entity's `GlobalTransform` is identical.  The tick
hypotheses say the first run's ticks are fresh (every pre-existing
component tick is at most the corresponding system's run tick), which
bevy's monotone tick counter guarantees; after the first run each system's
`lastRun` is the tick it just ran at. -/
theorem propagation_idempotent (w w1 : ECSWorld) (fuel fuel2 s0 p0 c1 c2 c3 c4 : Nat)
    (ht : TransTicksLe w c1) (hg : GlobalTicksLe w c2) (hcc : c1 ≤ c2)
    (h1 : run_transform_systems fuel w s0 p0 c1 c2 = some w1) :
    run_transform_systems fuel2 w1 c1 c2 c3 c4 = some w1 := by
  unfold run_transform_systems at h1 ⊢
  have hsg : GlobalTicksLe (sync_simple_transforms w s0 c1) c2 :=
    sync_globalTicks w s0 c1 c2 hg hcc
  have hpres := propagate_transforms_preserve c2 fuel p0 c2
    (sync_simple_transforms w s0 c1) w1 h1 le_rfl hsg
  have htr : w1.transforms = w.transforms :=
    hpres.1.1.trans (sync_transforms_eq w s0 c1)
  have ht1 : TransTicksLe w1 c1 := by
    intro x hx
    exact ht x (htr ▸ hx)
  rw [sync_noop w1 c1 c3 ht1]
  exact propagate_transforms_noop fuel2 w1 c2 c4 hpres.2

/-- Witness for `propagation_idempotent` on the concrete two-entity
hierarchy. -/
theorem propagation_idempotent_witness :
    run_transform_systems 1
      ⟨[(0, Transform.from_xyz 1 0 0, 1), (1, Transform.from_xyz 0 1 0, 1)],
       [(0, GlobalTransform.from_transform (Transform.from_xyz 1 0 0), 1),
        (1, (GlobalTransform.from_transform (Transform.from_xyz 1 0 0)).mul_transform
              (GlobalTransform.from_transform (Transform.from_xyz 0 1 0)), 2)],
       [(1, Parent.new 0)], [(0, Children.new [1])]⟩ 1 2 3 4 =
    some ⟨[(0, Transform.from_xyz 1 0 0, 1), (1, Transform.from_xyz 0 1 0, 1)],
       [(0, GlobalTransform.from_transform (Transform.from_xyz 1 0 0), 1),
        (1, (GlobalTransform.from_transform (Transform.from_xyz 1 0 0)).mul_transform
              (GlobalTransform.from_transform (Transform.from_xyz 0 1 0)), 2)],
       [(1, Parent.new 0)], [(0, Children.new [1])]⟩ :=
  propagation_idempotent
    ⟨[(0, Transform.from_xyz 1 0 0, 1), (1, Transform.from_xyz 0 1 0, 1)],
     [(0, GlobalTransform.IDENTITY, 0), (1, GlobalTransform.IDENTITY, 0)],
     [(1, Parent.new 0)], [(0, Children.new [1])]⟩
    _ 1 1 0 0 1 2 3 4
    (by
      intro x hx
      simp only [List.mem_cons, List.not_mem_nil, or_false] at hx
      rcases hx with rfl | rfl <;> decide)
    (by
      intro x hx
      simp only [List.mem_cons, List.not_mem_nil, or_false] at hx
      rcases hx with rfl | rfl <;> decide)
    (by decide) rfl

/-! ## C6: `compute_matrix` is T·R·S; the quaternion-action form needs a
unit rotation -/

/-- C6 counterexample: for the (API-constructible) transform with the
non-normalized rotation quaternion `(1, 0, 0, 1)`, identity scale and zero
translation, `transform_point` at `(0, 1, 0)` gives `(0, -1, 2)` while
`translation + rotation * (scale * p)` (glam's `Quat::mul_vec3`) gives
`(0, 0, 2)` — the claim's "equivalently" clause fails as stated for every
`Transform`. -/
theorem transform_point_quat_counterexample :
    ¬ ((⟨⟨0, 0, 0⟩, ⟨1, 0, 0, 1⟩, ⟨1, 1, 1⟩⟩ : Transform ℚ).transform_point ⟨0, 1, 0⟩ =
       (⟨⟨0, 0, 0⟩, ⟨1, 0, 0, 1⟩, ⟨1, 1, 1⟩⟩ : Transform ℚ).translation +
         Quat.mulVec3 (⟨⟨0, 0, 0⟩, ⟨1, 0, 0, 1⟩, ⟨1, 1, 1⟩⟩ : Transform ℚ).rotation
           ((⟨⟨0, 0, 0⟩, ⟨1, 0, 0, 1⟩, ⟨1, 1, 1⟩⟩ : Transform ℚ).scale * ⟨0, 1, 0⟩)) := by
  norm_num [Transform.transform_point, Transform.compute_matrix,
    Mat4.fromScaleRotationTranslation, Mat4.transformPoint3, Mat4.mulVec4,
    Quat.toXAxis, Quat.toYAxis, Quat.toZAxis, Quat.mulVec3, Vec3.dot, Vec3.cross,
    Vec3.smul, Vec4.smul, Vec4.truncate, Vec4.add4_def, Vec3.add_def, Vec3.mul_def,
    Vec3.mk.injEq]

/-- C6 (amended): for every `Transform`, `compute_matrix` equals the matrix
product `T · R · S` of its translation, rotation and scale matrices (scale
first, then rotation, then translation); and for every transform whose
rotation is a *unit* quaternion (the data-model invariant),
`transform_point p = translation + rotation * (scale ⊙ p)`. -/
theorem compute_matrix_trs (t : Transform ℚ) :
    t.compute_matrix =
      Mat4.fromTranslation t.translation *
        (Mat4.fromQuat t.rotation * Mat4.fromScale t.scale) ∧
    (Quat.normSq t.rotation = 1 →
      ∀ p : Vec3 ℚ, t.transform_point p =
        t.translation + t.rotation.mulVec3 (t.scale * p)) := by
  rcases t with ⟨⟨tx, ty, tz⟩, ⟨qx, qy, qz, qw⟩, ⟨sx, sy, sz⟩⟩
  constructor
  · simp only [Transform.compute_matrix, Mat4.fromScaleRotationTranslation,
      Mat4.fromTranslation, Mat4.fromQuat, Mat4.fromScale, Mat4.mul4_def, Mat4.mulMat4,
      Mat4.mulVec4, Quat.toXAxis, Quat.toYAxis, Quat.toZAxis, Vec4.smul, Vec4.add4_def,
      Mat4.mk.injEq, Vec4.mk.injEq]
    and_intros <;> ring
  · intro h p
    rcases p with ⟨px, py, pz⟩
    simp only [Quat.normSq, Quat.dot] at h
    simp only [Transform.transform_point, Transform.compute_matrix,
      Mat4.fromScaleRotationTranslation, Mat4.transformPoint3, Mat4.mulVec4,
      Quat.toXAxis, Quat.toYAxis, Quat.toZAxis, Quat.mulVec3, Vec3.dot, Vec3.cross,
      Vec3.smul, Vec4.smul, Vec4.truncate, Vec4.add4_def, Vec3.add_def, Vec3.mul_def,
      Vec3.mk.injEq]
    refine ⟨?_, ?_, ?_⟩
    · linear_combination (-(sx * px)) * h
    · linear_combination (-(sy * py)) * h
    · linear_combination (-(sz * pz)) * h

/-- Witness for `compute_matrix_trs` at the unit quaternion
`(3/5, 0, 0, 4/5)`. -/
theorem compute_matrix_trs_witness :
    Quat.normSq (⟨3/5, 0, 0, 4/5⟩ : Quat ℚ) = 1 ∧
    (⟨⟨1, 2, 3⟩, ⟨3/5, 0, 0, 4/5⟩, ⟨2, 1, 1⟩⟩ : Transform ℚ).transform_point ⟨5, 7, 11⟩ =
      (⟨1, 2, 3⟩ : Vec3 ℚ) +
        Quat.mulVec3 ⟨3/5, 0, 0, 4/5⟩ ((⟨2, 1, 1⟩ : Vec3 ℚ) * ⟨5, 7, 11⟩) :=
  ⟨by norm_num [Quat.normSq, Quat.dot],
   (compute_matrix_trs ⟨⟨1, 2, 3⟩, ⟨3/5, 0, 0, 4/5⟩, ⟨2, 1, 1⟩⟩).2
     (by norm_num [Quat.normSq, Quat.dot]) ⟨5, 7, 11⟩⟩

/-! ## C8: termination of the hierarchy traversals -/

theorem dup_split {l : List Entity} (h : ¬ l.Nodup) :
    ∃ x l1 l2 l3, l = l1 ++ x :: (l2 ++ x :: l3) := by
  induction l with
  | nil => exact absurd List.nodup_nil h
  | cons a t ih =>
    by_cases ha : a ∈ t
    · rcases List.append_of_mem ha with ⟨s, u, rfl⟩
      exact ⟨a, [], s, u, rfl⟩
    · have : ¬ t.Nodup := fun hn => h (List.nodup_cons.mpr ⟨ha, hn⟩)
      rcases ih this with ⟨x, l1, l2, l3, rfl⟩
      exact ⟨x, a :: l1, l2, l3, rfl⟩

theorem chain_mem_dom (R : Entity → Entity → Prop) (D : List Entity)
    (hdom : ∀ a b, R a b → b ∈ D) :
    ∀ (a : Entity) (l : List Entity), List.Chain R a l → ∀ x ∈ l, x ∈ D := by
  intro a l
  induction l generalizing a with
  | nil => intro _ x hx; cases hx
  | cons b t ih =>
    intro h x hx
    rcases List.chain_cons.mp h with ⟨hab, ht⟩
    rcases List.mem_cons.mp hx with rfl | hx'
    · exact hdom a x hab
    · exact ih b ht x hx'

theorem chain_nodup (R : Entity → Entity → Prop) (hacyc : RelAcyclic R)
    (a : Entity) (l : List Entity) (h : List.Chain R a l) : l.Nodup := by
  by_contra hn
  rcases dup_split hn with ⟨x, l1, l2, l3, rfl⟩
  have h1 := ((@List.chain_split _ _ a x l1 (l2 ++ x :: l3)).mp h).2
  have h2 := ((@List.chain_split _ _ x x l2 l3).mp h1).1
  exact hacyc x l2 h2

theorem chain_length_le (R : Entity → Entity → Prop) (D : List Entity)
    (hdom : ∀ a b, R a b → b ∈ D) (hacyc : RelAcyclic R)
    (a : Entity) (l : List Entity) (h : List.Chain R a l) : l.length ≤ D.length := by
  have hsub : l.toFinset ⊆ D.toFinset := by
    intro x hx
    exact List.mem_toFinset.mpr
      (chain_mem_dom R D hdom a l h x (List.mem_toFinset.mp hx))
  calc l.length = l.toFinset.card :=
        (List.toFinset_card_of_nodup (chain_nodup R hacyc a l h)).symm
    _ ≤ D.toFinset.card := Finset.card_le_card hsub
    _ ≤ D.length := D.toFinset_card_le

theorem chain_take (R : Entity → Entity → Prop) :
    ∀ (l : List Entity) (a : Entity) (n : Nat),
      List.Chain R a l → List.Chain R a (l.take n) := by
  intro l
  induction l with
  | nil => intro a n _; simp [List.Chain.nil]
  | cons b t ih =>
    intro a n h
    rcases List.chain_cons.mp h with ⟨hab, ht⟩
    cases n with
    | zero => exact List.Chain.nil
    | succ n => exact List.chain_cons.mpr ⟨hab, ih b n ht⟩

theorem cycle_chain_long (R : Entity → Entity → Prop) (x : Entity) (l2 : List Entity)
    (hc : List.Chain R x (l2 ++ [x])) :
    ∀ n, ∃ l, List.Chain R x l ∧ n ≤ l.length := by
  intro n
  induction n with
  | zero => exact ⟨[], List.Chain.nil, Nat.zero_le 0⟩
  | succ n ih =>
    rcases ih with ⟨l, hl, hlen⟩
    refine ⟨l2 ++ x :: l, List.chain_split.mpr ⟨hc, hl⟩, ?_⟩
    simp only [List.length_append, List.length_cons]
    omega

theorem relCycleFrom_chains (R : Entity → Entity → Prop) (e : Entity)
    (h : RelCycleFrom R e) : ∀ n, ∃ l, List.Chain R e l ∧ l.length = n := by
  rcases h with ⟨x, hreach, l2, hcyc⟩
  intro n
  have hbig : ∃ l, List.Chain R e l ∧ n ≤ l.length := by
    rcases hreach with rfl | ⟨l0, hl0⟩
    · exact cycle_chain_long R x l2 hcyc n
    · rcases cycle_chain_long R x l2 hcyc n with ⟨l, hl, hlen⟩
      refine ⟨l0 ++ x :: l, List.chain_split.mpr ⟨hl0, hl⟩, ?_⟩
      simp only [List.length_append, List.length_cons]
      omega
  rcases hbig with ⟨l, hl, hlen⟩
  refine ⟨l.take n, chain_take R l e n hl, ?_⟩
  rw [List.length_take]
  omega

theorem relAcyclic_of_no_edges (R : Entity → Entity → Prop)
    (h : ∀ a b, ¬ R a b) : RelAcyclic R := by
  intro x l hch
  cases l with
  | nil => exact h x x (List.chain_cons.mp hch).1
  | cons b t => exact h x b (List.chain_cons.mp hch).1

theorem foldlb_none {γ β : Type} (f : γ → β → Option γ) :
    ∀ l : List β, l.foldl (fun acc b => acc.bind (fun x => f x b)) none = none := by
  intro l
  induction l with
  | nil => rfl
  | cons b rest ih => simpa using ih

theorem foldlb_isSome {γ β : Type} (f : γ → β → Option γ) (P : γ → Prop)
    (hpres : ∀ x b y, P x → f x b = some y → P y) :
    ∀ (l : List β), (∀ b ∈ l, ∀ x, P x → (f x b).isSome) →
      ∀ init : γ, P init →
      (l.foldl (fun acc b => acc.bind (fun x => f x b)) (some init)).isSome := by
  intro l
  induction l with
  | nil => intro _ init _; rfl
  | cons b rest ih =>
    intro hl init hinit
    rw [List.foldl_cons]
    rcases Option.isSome_iff_exists.mp (hl b (List.mem_cons_self b rest) init hinit)
      with ⟨y, hy⟩
    simp only [Option.some_bind, hy]
    exact ih (fun b' hb' => hl b' (List.mem_cons_of_mem b hb')) y (hpres init b y hinit hy)

theorem foldlb_none_of_mem {γ β : Type} (f : γ → β → Option γ) (P : γ → Prop)
    (hpres : ∀ x b y, P x → f x b = some y → P y) :
    ∀ (l : List β) (b0 : β), b0 ∈ l → (∀ x, P x → f x b0 = none) →
      ∀ init : γ, P init →
      l.foldl (fun acc b => acc.bind (fun x => f x b)) (some init) = none := by
  intro l
  induction l with
  | nil => intro b0 hb0; cases hb0
  | cons b rest ih =>
    intro b0 hb0 hfail init hinit
    rw [List.foldl_cons]
    rcases List.mem_cons.mp hb0 with rfl | hb0'
    · simp only [Option.some_bind, hfail init hinit]
      exact foldlb_none f rest
    · cases hfb : f init b with
      | none =>
        simp only [Option.some_bind, hfb]
        exact foldlb_none f rest
      | some y =>
        simp only [Option.some_bind, hfb]
        exact ih b0 hb0' hfail y (hpres init b y hinit hfb)

theorem anc_isSome_of_bound (w : ECSWorld) :
    ∀ (fuel : Nat) (e : Entity),
      (∀ l, List.Chain (parentEdge w) e l → l.length < fuel) →
      (TransformHierarchy.get_ancestors fuel w e).isSome := by
  intro fuel
  induction fuel with
  | zero =>
    intro e hb
    exact absurd (hb [] List.Chain.nil) (by omega)
  | succ fuel ih =>
    intro e hb
    rw [TransformHierarchy.get_ancestors]
    cases hp : findEntry w.parents e with
    | none => rfl
    | some p =>
      dsimp only
      have hedge : parentEdge w e p.get := ⟨p, hp, rfl⟩
      have hb' : ∀ l, List.Chain (parentEdge w) p.get l → l.length < fuel := by
        intro l hl
        have := hb (p.get :: l) (List.chain_cons.mpr ⟨hedge, hl⟩)
        simp only [List.length_cons] at this
        omega
      rcases Option.isSome_iff_exists.mp (ih p.get hb') with ⟨v, hv⟩
      simp [hv]

theorem anc_none_of_chain (w : ECSWorld) :
    ∀ (fuel : Nat) (e : Entity) (l : List Entity),
      List.Chain (parentEdge w) e l → fuel ≤ l.length →
      TransformHierarchy.get_ancestors fuel w e = none := by
  intro fuel
  induction fuel with
  | zero => intro e l _ _; rfl
  | succ fuel ih =>
    intro e l hl hlen
    cases l with
    | nil => simp at hlen
    | cons b l' =>
      rcases List.chain_cons.mp hl with ⟨⟨p, hp, hpb⟩, hl'⟩
      rw [TransformHierarchy.get_ancestors]
      simp only [hp]
      rw [hpb, ih b l' hl' (by simpa using hlen)]
      rfl

theorem desc_isSome_of_bound (w : ECSWorld) :
    ∀ (fuel : Nat) (e : Entity),
      (∀ l, List.Chain (childEdge w) e l → l.length < fuel) →
      (TransformHierarchy.get_descendants fuel w e).isSome := by
  intro fuel
  induction fuel with
  | zero =>
    intro e hb
    exact absurd (hb [] List.Chain.nil) (by omega)
  | succ fuel ih =>
    intro e hb
    rw [TransformHierarchy.get_descendants]
    cases hcs : findEntry w.childrenOf e with
    | none => rfl
    | some cs =>
      dsimp only
      apply foldlb_isSome _ (fun _ => True) (fun _ _ _ _ _ => trivial)
      · intro c hc x _
        have hedge : childEdge w e c := ⟨cs, hcs, hc⟩
        have hb' : ∀ l, List.Chain (childEdge w) c l → l.length < fuel := by
          intro l hl
          have := hb (c :: l) (List.chain_cons.mpr ⟨hedge, hl⟩)
          simp only [List.length_cons] at this
          omega
        rcases Option.isSome_iff_exists.mp (ih c hb') with ⟨v, hv⟩
        simp [hv]
      · trivial

theorem desc_none_of_chain (w : ECSWorld) :
    ∀ (fuel : Nat) (e : Entity) (l : List Entity),
      List.Chain (childEdge w) e l → fuel ≤ l.length →
      TransformHierarchy.get_descendants fuel w e = none := by
  intro fuel
  induction fuel with
  | zero => intro e l _ _; rfl
  | succ fuel ih =>
    intro e l hl hlen
    cases l with
    | nil => simp at hlen
    | cons c l' =>
      rcases List.chain_cons.mp hl with ⟨⟨cs, hcs, hc⟩, hl'⟩
      rw [TransformHierarchy.get_descendants]
      simp only [hcs]
      exact foldlb_none_of_mem _ (fun _ => True) (fun _ _ _ _ _ => trivial)
        cs.children c hc
        (fun x _ => by rw [ih c l' hl' (by simpa using hlen)]; rfl) [] trivial

theorem findEntry_isSome_congr {β γ : Type} :
    ∀ (l : List (Entity × β)) (l' : List (Entity × γ)),
      l.map (fun kv => kv.1) = l'.map (fun kv => kv.1) →
      ∀ e, (findEntry l e).isSome = (findEntry l' e).isSome := by
  intro l
  induction l with
  | nil =>
    intro l' h e
    cases l' with
    | nil => rfl
    | cons kv' rest' => simp at h
  | cons kv rest ih =>
    intro l' h e
    cases l' with
    | nil => simp at h
    | cons kv' rest' =>
      rcases kv with ⟨k, v⟩
      rcases kv' with ⟨k', v'⟩
      simp only [List.map_cons, List.cons.injEq] at h
      have hk : k = k' := h.1
      subst hk
      rw [findEntry, findEntry]
      by_cases he : e = k
      · simp [he]
      · simp [he, ih rest' h.2 e]

theorem setGlobal_transforms (w : ECSWorld) (e : Entity) (g : GlobalTransform ℚ)
    (t : Nat) : (w.setGlobal e g t).transforms = w.transforms := rfl

theorem setGlobal_parents (w : ECSWorld) (e : Entity) (g : GlobalTransform ℚ)
    (t : Nat) : (w.setGlobal e g t).parents = w.parents := rfl

theorem setGlobal_childrenOf (w : ECSWorld) (e : Entity) (g : GlobalTransform ℚ)
    (t : Nat) : (w.setGlobal e g t).childrenOf = w.childrenOf := rfl

theorem setGlobal_hierEq (w : ECSWorld) (e : Entity) (g : GlobalTransform ℚ) (t : Nat) :
    hierEq (w.setGlobal e g t) w := ⟨rfl, setGlobal_keys w e g t, rfl, rfl⟩

theorem hierEq_refl (w : ECSWorld) : hierEq w w := ⟨rfl, rfl, rfl, rfl⟩

theorem hierEq_trans {a b c : ECSWorld} (h1 : hierEq a b) (h2 : hierEq b c) : hierEq a c :=
  ⟨h1.1.trans h2.1, h1.2.1.trans h2.2.1, h1.2.2.1.trans h2.2.2.1, h1.2.2.2.trans h2.2.2.2⟩

theorem propagate_children_hierEq (pg : GlobalTransform ℚ) (cs : List Entity)
    (w : ECSWorld) (cur : Nat) : hierEq (propagate_children pg cs w cur).1 w := by
  have h := propagate_children_fields pg cs w cur
  exact ⟨h.1, h.2.2.2, h.2.1, h.2.2.1⟩

theorem propagate_recursive_hierEq :
    ∀ (fuel : Nat) (pg : GlobalTransform ℚ) (cc : Children) (w : ECSWorld) (cur : Nat)
      (w' : ECSWorld), propagate_recursive fuel pg cc w cur = some w' → hierEq w' w := by
  intro fuel
  induction fuel with
  | zero => intro pg cc w cur w' h; simp [propagate_recursive] at h
  | succ fuel ih =>
    intro pg cc w cur w' h
    rw [propagate_recursive] at h
    refine foldl_bind_preserve
      (fun (x : ECSWorld) (pr : GlobalTransform ℚ × Children) =>
        propagate_recursive fuel pr.1 pr.2 x cur)
      (fun x => hierEq x w) ?_ _ _ w' ?_ h
    · intro x pr y hx hstep
      exact hierEq_trans (ih pr.1 pr.2 x cur y hstep) hx
    · exact propagate_children_hierEq pg cc.children w cur

theorem inTQ_congr {w' w : ECSWorld} (h : hierEq w' w) (e : Entity) :
    inTransformQuery w' e ↔ inTransformQuery w e := by
  unfold inTransformQuery
  rw [h.1, h.2.2.1, findEntry_isSome_congr w'.globals w.globals h.2.1 e]

theorem propagate_children_toRec_sub (pg : GlobalTransform ℚ) :
    ∀ (cs : List Entity) (w : ECSWorld) (cur : Nat) (x : GlobalTransform ℚ × Children),
      x ∈ (propagate_children pg cs w cur).2 →
      ∃ c ∈ cs, inTransformQuery w c ∧ findEntry w.childrenOf c = some x.2 := by
  intro cs
  induction cs with
  | nil => intro w cur x hx; simp [propagate_children] at hx
  | cons c rest ih =>
    intro w cur x hx
    rw [propagate_children] at hx
    split at hx
    · next tv u1 u2 heq1 heq2 heq3 =>
      dsimp only at hx
      split at hx
      · next cc hcc =>
        rcases List.mem_cons.mp hx with rfl | hx'
        · refine ⟨c, List.mem_cons_self c rest, ⟨?_, ?_, ?_⟩, ?_⟩
          · rw [heq1]; rfl
          · rw [heq2]; rfl
          · rw [heq3]; rfl
          · rw [setGlobal_childrenOf] at hcc
            exact hcc
        · rcases ih _ cur x hx' with ⟨c', hc', hTQ, hCO⟩
          refine ⟨c', List.mem_cons_of_mem c hc', ?_, ?_⟩
          · exact (inTQ_congr (setGlobal_hierEq w c _ cur) c').mp hTQ
          · rw [setGlobal_childrenOf] at hCO
            exact hCO
      · rcases ih _ cur x hx with ⟨c', hc', hTQ, hCO⟩
        refine ⟨c', List.mem_cons_of_mem c hc', ?_, ?_⟩
        · exact (inTQ_congr (setGlobal_hierEq w c _ cur) c').mp hTQ
        · rw [setGlobal_childrenOf] at hCO
          exact hCO
    · rcases ih w cur x hx with ⟨c', hc', hTQ, hCO⟩
      exact ⟨c', List.mem_cons_of_mem c hc', hTQ, hCO⟩

theorem propagate_children_toRec_of (pg : GlobalTransform ℚ) :
    ∀ (cs : List Entity) (w : ECSWorld) (cur : Nat) (c : Entity) (cc : Children),
      c ∈ cs → inTransformQuery w c → findEntry w.childrenOf c = some cc →
      ∃ g, (g, cc) ∈ (propagate_children pg cs w cur).2 := by
  intro cs
  induction cs with
  | nil => intro w cur c cc hc; cases hc
  | cons c0 rest ih =>
    intro w cur c cc hc hTQ hCO
    rw [propagate_children]
    rcases List.mem_cons.mp hc with rfl | hc'
    · rcases Option.isSome_iff_exists.mp hTQ.1 with ⟨tv, htv⟩
      rcases Option.isSome_iff_exists.mp hTQ.2.1 with ⟨gv, hgv⟩
      rcases Option.isSome_iff_exists.mp hTQ.2.2 with ⟨pv, hpv⟩
      simp only [htv, hgv, hpv]
      rw [setGlobal_childrenOf, hCO]
      exact ⟨_, List.mem_cons_self _ _⟩
    · split
      · next tv u1 u2 heq1 heq2 heq3 =>
        dsimp only
        have hTQ1 : inTransformQuery
            (w.setGlobal c0 (pg.mul_transform (GlobalTransform.from_transform tv.1)) cur) c :=
          (inTQ_congr (setGlobal_hierEq w c0 _ cur) c).mpr hTQ
        have hCO1 : findEntry
            (w.setGlobal c0 (pg.mul_transform (GlobalTransform.from_transform tv.1))
              cur).childrenOf c = some cc := by
          rw [setGlobal_childrenOf]
          exact hCO
        rcases ih _ cur c cc hc' hTQ1 hCO1 with ⟨g, hg⟩
        split
        · exact ⟨g, List.mem_cons_of_mem _ hg⟩
        · exact ⟨g, hg⟩
      · exact ih w cur c cc hc' hTQ hCO

theorem prop_rec_isSome_of_bound (w : ECSWorld) :
    ∀ (fuel : Nat) (chn : Children) (w' : ECSWorld), hierEq w' w →
      (∀ c ∈ chn.children, inTransformQuery w c → (findEntry w.childrenOf c).isSome →
        ∀ l, List.Chain (propEdge w) c l → l.length < fuel) →
      ∀ (pg : GlobalTransform ℚ) (cur : Nat),
        (propagate_recursive (fuel + 1) pg chn w' cur).isSome := by
  intro fuel
  induction fuel with
  | zero =>
    intro chn w' hw hb pg cur
    rw [propagate_recursive]
    have hnil : (propagate_children pg chn.children w' cur).2 = [] := by
      rw [List.eq_nil_iff_forall_not_mem]
      intro x hx
      rcases propagate_children_toRec_sub pg chn.children w' cur x hx with ⟨c, hc, hTQ, hCO⟩
      have hTQw : inTransformQuery w c := (inTQ_congr hw c).mp hTQ
      have hCOw : findEntry w.childrenOf c = some x.2 := by
        rw [← hw.2.2.2]
        exact hCO
      exact absurd (hb c hc hTQw (by rw [hCOw]; rfl) [] List.Chain.nil) (by omega)
    rw [hnil]
    rfl
  | succ fuel ih =>
    intro chn w' hw hb pg cur
    rw [propagate_recursive]
    apply foldlb_isSome _ (fun x => hierEq x w)
    · intro x pr y hx hstep
      exact hierEq_trans (propagate_recursive_hierEq (fuel + 1) pr.1 pr.2 x cur y hstep) hx
    · intro pr hpr x hx
      rcases propagate_children_toRec_sub pg chn.children w' cur pr hpr with ⟨c, hc, hTQ, hCO⟩
      have hTQw : inTransformQuery w c := (inTQ_congr hw c).mp hTQ
      have hCOw : findEntry w.childrenOf c = some pr.2 := by
        rw [← hw.2.2.2]
        exact hCO
      have hb' : ∀ c' ∈ pr.2.children, inTransformQuery w c' →
          (findEntry w.childrenOf c').isSome →
          ∀ l, List.Chain (propEdge w) c' l → l.length < fuel := by
        intro c' hc' hTQ' hHC' l hl
        have hedge : propEdge w c c' := ⟨⟨pr.2, hCOw, hc'⟩, hTQ', hHC'⟩
        have := hb c hc hTQw (by rw [hCOw]; rfl) (c' :: l)
          (List.chain_cons.mpr ⟨hedge, hl⟩)
        simp only [List.length_cons] at this
        omega
      exact ih pr.2 x hx hb' pr.1 cur
    · exact hierEq_trans (propagate_children_hierEq pg chn.children w' cur) hw

theorem prop_rec_none_of_chain (w : ECSWorld) :
    ∀ (fuel : Nat) (chn : Children) (w' : ECSWorld), hierEq w' w →
      ∀ c ∈ chn.children, inTransformQuery w c →
      ∀ (cc : Children), findEntry w.childrenOf c = some cc →
      ∀ (l : List Entity), List.Chain (propEdge w) c l → fuel ≤ l.length + 1 →
      ∀ (pg : GlobalTransform ℚ) (cur : Nat),
        propagate_recursive fuel pg chn w' cur = none := by
  intro fuel
  induction fuel with
  | zero => intro chn w' _ c _ _ cc _ l _ _ pg cur; rfl
  | succ fuel ih =>
    intro chn w' hw c hc hTQ cc hCO l hl hlen pg cur
    rw [propagate_recursive]
    have hTQ' : inTransformQuery w' c := (inTQ_congr hw c).mpr hTQ
    have hCO' : findEntry w'.childrenOf c = some cc := by
      rw [hw.2.2.2]
      exact hCO
    rcases propagate_children_toRec_of pg chn.children w' cur c cc hc hTQ' hCO' with ⟨g, hg⟩
    apply foldlb_none_of_mem _ (fun x => hierEq x w) ?_ _ (g, cc) hg ?_ _ ?_
    · intro x pr y hx hstep
      exact hierEq_trans (propagate_recursive_hierEq fuel pr.1 pr.2 x cur y hstep) hx
    · intro x hx
      cases l with
      | nil =>
        have : fuel = 0 := by simpa using hlen
        subst this
        rfl
      | cons c1 l' =>
        rcases List.chain_cons.mp hl with ⟨⟨⟨cs1, hcs1, hc1⟩, hTQ1, hHC1⟩, hl'⟩
        have hcs1cc : cs1 = cc := by
          rw [hcs1] at hCO
          exact Option.some.inj hCO
        subst hcs1cc
        rcases Option.isSome_iff_exists.mp hHC1 with ⟨cc1, hcc1⟩
        have := ih cs1 x hx c1 hc1 hTQ1 cc1 hcc1 l' hl'
          (by simp only [List.length_cons] at hlen; omega) g cur
        exact this
    · exact hierEq_trans (propagate_children_hierEq pg chn.children w' cur) hw

theorem parentEdge_dom (w : ECSWorld) (a b : Entity) (h : parentEdge w a b) :
    b ∈ w.parents.map (fun kv => kv.2.get) := by
  rcases h with ⟨p, hp, hpb⟩
  exact List.mem_map.mpr ⟨(a, p), findEntry_mem _ _ _ hp, hpb⟩

theorem childEdge_dom (w : ECSWorld) (a b : Entity) (h : childEdge w a b) :
    b ∈ (w.childrenOf.map (fun kv => kv.2.children)).flatten := by
  rcases h with ⟨cs, hcs, hb⟩
  exact List.mem_flatten.mpr
    ⟨cs.children, List.mem_map.mpr ⟨(a, cs), findEntry_mem _ _ _ hcs, rfl⟩, hb⟩

/-- C8: termination of the three hierarchy traversals.  For each function,
the traversal relation is the one it actually follows: `get_ancestors`
walks `parentEdge`, `get_descendants` walks `childEdge`, and
`propagate_recursive` recurses along `propEdge` (a child edge into an
entity that matches its `transform_query` and itself has `Children`).  If
the relation is acyclic the traversal terminates from every start (some
recursion depth suffices, bounded by the component-storage size); if a
cycle is reachable from the start, it runs out of any given depth — i.e.
the Rust recursion never terminates. -/
theorem hierarchy_traversals_terminate (w : ECSWorld) (e : Entity) :
    (RelAcyclic (parentEdge w) → ancestorsTerminate w e) ∧
    (RelCycleFrom (parentEdge w) e → ¬ ancestorsTerminate w e) ∧
    (RelAcyclic (childEdge w) → descendantsTerminate w e) ∧
    (RelCycleFrom (childEdge w) e → ¬ descendantsTerminate w e) ∧
    (∀ cs, findEntry w.childrenOf e = some cs →
      (RelAcyclic (propEdge w) →
        ∀ pg cur, propagateTerminates w cs pg cur) ∧
      (RelCycleFrom (propEdge w) e →
        ∀ pg cur, ¬ propagateTerminates w cs pg cur)) := by
  refine ⟨?_, ?_, ?_, ?_, ?_⟩
  · intro hacyc
    refine ⟨(w.parents.map (fun kv => kv.2.get)).length + 1, anc_isSome_of_bound w _ e ?_⟩
    intro l hl
    have := chain_length_le (parentEdge w) _ (parentEdge_dom w) hacyc e l hl
    omega
  · rintro hcyc ⟨fuel, hs⟩
    rcases relCycleFrom_chains _ e hcyc fuel with ⟨l, hl, hlen⟩
    rw [anc_none_of_chain w fuel e l hl (le_of_eq hlen.symm)] at hs
    cases hs
  · intro hacyc
    refine ⟨(w.childrenOf.map (fun kv => kv.2.children)).flatten.length + 1,
      desc_isSome_of_bound w _ e ?_⟩
    intro l hl
    have := chain_length_le (childEdge w) _ (childEdge_dom w) hacyc e l hl
    omega
  · rintro hcyc ⟨fuel, hs⟩
    rcases relCycleFrom_chains _ e hcyc fuel with ⟨l, hl, hlen⟩
    rw [desc_none_of_chain w fuel e l hl (le_of_eq hlen.symm)] at hs
    cases hs
  · intro cs hcs
    constructor
    · intro hacyc pg cur
      refine ⟨(w.childrenOf.map (fun kv => kv.2.children)).flatten.length + 1 + 1,
        prop_rec_isSome_of_bound w _ cs w (hierEq_refl w) ?_ pg cur⟩
      intro c _ _ _ l hl
      have := chain_length_le (propEdge w) _
        (fun a b hab => childEdge_dom w a b hab.1) hacyc c l hl
      omega
    · rintro hcyc pg cur ⟨fuel, hs⟩
      cases fuel with
      | zero => cases hs
      | succ f =>
        rcases relCycleFrom_chains _ e hcyc (f + 1) with ⟨l, hl, hlen⟩
        cases l with
        | nil => simp at hlen
        | cons c l' =>
          rcases List.chain_cons.mp hl with ⟨⟨⟨cs', hcs', hc⟩, hTQ, hHC⟩, hl'⟩
          have hcc : cs' = cs := by
            rw [hcs'] at hcs
            exact Option.some.inj hcs
          subst hcc
          rcases Option.isSome_iff_exists.mp hHC with ⟨cc, hcc⟩
          rw [prop_rec_none_of_chain w (f + 1) cs' w (hierEq_refl w) c hc hTQ cc hcc l' hl'
            (by simp only [List.length_cons] at hlen; omega) pg cur] at hs
          cases hs

/-- Witness for `hierarchy_traversals_terminate`: the traversals terminate
on a world with no cycle, and diverge on a world whose entity 0 is its own
parent and its own child. -/
theorem hierarchy_traversals_terminate_witness :
    ancestorsTerminate ⟨[], [], [], []⟩ 0 ∧
    descendantsTerminate ⟨[], [], [], []⟩ 0 ∧
    propagateTerminates
      ⟨[(1, Transform.IDENTITY, 0)], [(1, GlobalTransform.IDENTITY, 0)],
        [(1, Parent.new 0)], [(0, Children.new [1])]⟩
      (Children.new [1]) GlobalTransform.IDENTITY 5 ∧
    ¬ ancestorsTerminate
      ⟨[(0, Transform.IDENTITY, 0)], [(0, GlobalTransform.IDENTITY, 0)],
        [(0, Parent.new 0)], [(0, Children.new [0])]⟩ 0 ∧
    ¬ descendantsTerminate
      ⟨[(0, Transform.IDENTITY, 0)], [(0, GlobalTransform.IDENTITY, 0)],
        [(0, Parent.new 0)], [(0, Children.new [0])]⟩ 0 ∧
    ¬ propagateTerminates
      ⟨[(0, Transform.IDENTITY, 0)], [(0, GlobalTransform.IDENTITY, 0)],
        [(0, Parent.new 0)], [(0, Children.new [0])]⟩
      (Children.new [0]) GlobalTransform.IDENTITY 5 := by
  have hno_pa : ∀ a b, ¬ parentEdge (⟨[], [], [], []⟩ : ECSWorld) a b := by
    rintro a b ⟨p, hp, -⟩
    exact Option.noConfusion hp
  have hno_ca : ∀ a b, ¬ childEdge (⟨[], [], [], []⟩ : ECSWorld) a b := by
    rintro a b ⟨cs, hcs, -⟩
    exact Option.noConfusion hcs
  have hno_pp : ∀ a b, ¬ propEdge
      (⟨[(1, Transform.IDENTITY, 0)], [(1, GlobalTransform.IDENTITY, 0)],
        [(1, Parent.new 0)], [(0, Children.new [1])]⟩ : ECSWorld) a b := by
    rintro a b ⟨⟨cs', hcs', hb⟩, -, hHC⟩
    rw [findEntry] at hcs'
    split at hcs'
    · cases hcs'
      have hb1 : b = 1 := by simpa [Children.new] using hb
      subst hb1
      simp [findEntry] at hHC
    · exact Option.noConfusion hcs'
  have hedge_p : parentEdge
      (⟨[(0, Transform.IDENTITY, 0)], [(0, GlobalTransform.IDENTITY, 0)],
        [(0, Parent.new 0)], [(0, Children.new [0])]⟩ : ECSWorld) 0 0 :=
    ⟨Parent.new 0, rfl, rfl⟩
  have hedge_c : childEdge
      (⟨[(0, Transform.IDENTITY, 0)], [(0, GlobalTransform.IDENTITY, 0)],
        [(0, Parent.new 0)], [(0, Children.new [0])]⟩ : ECSWorld) 0 0 :=
    ⟨Children.new [0], rfl, by simp [Children.new]⟩
  have hedge_pr : propEdge
      (⟨[(0, Transform.IDENTITY, 0)], [(0, GlobalTransform.IDENTITY, 0)],
        [(0, Parent.new 0)], [(0, Children.new [0])]⟩ : ECSWorld) 0 0 :=
    ⟨hedge_c, ⟨rfl, rfl, rfl⟩, rfl⟩
  refine ⟨?_, ?_, ?_, ?_, ?_, ?_⟩
  · exact (hierarchy_traversals_terminate ⟨[], [], [], []⟩ 0).1
      (relAcyclic_of_no_edges _ hno_pa)
  · exact (hierarchy_traversals_terminate ⟨[], [], [], []⟩ 0).2.2.1
      (relAcyclic_of_no_edges _ hno_ca)
  · exact ((hierarchy_traversals_terminate
        ⟨[(1, Transform.IDENTITY, 0)], [(1, GlobalTransform.IDENTITY, 0)],
          [(1, Parent.new 0)], [(0, Children.new [1])]⟩ 0).2.2.2.2
        (Children.new [1]) rfl).1
      (relAcyclic_of_no_edges _ hno_pp) GlobalTransform.IDENTITY 5
  · exact (hierarchy_traversals_terminate _ 0).2.1
      ⟨0, Or.inl rfl, [], List.chain_cons.mpr ⟨hedge_p, List.Chain.nil⟩⟩
  · exact (hierarchy_traversals_terminate _ 0).2.2.2.1
      ⟨0, Or.inl rfl, [], List.chain_cons.mpr ⟨hedge_c, List.Chain.nil⟩⟩
  · exact ((hierarchy_traversals_terminate
        ⟨[(0, Transform.IDENTITY, 0)], [(0, GlobalTransform.IDENTITY, 0)],
          [(0, Parent.new 0)], [(0, Children.new [0])]⟩ 0).2.2.2.2
        (Children.new [0]) rfl).2
      ⟨0, Or.inl rfl, [], List.chain_cons.mpr ⟨hedge_pr, List.Chain.nil⟩⟩
      GlobalTransform.IDENTITY 5

/-! ## C5: error behaviour of `Transform::looking_at` -/

theorem lengthSq_nonneg (v : Vec3 ℝ) : 0 ≤ v.lengthSq := by
  unfold Vec3.lengthSq
  nlinarith [mul_self_nonneg v.x, mul_self_nonneg v.y, mul_self_nonneg v.z]

theorem lengthSq_eq_zero_iff (v : Vec3 ℝ) : v.lengthSq = 0 ↔ v = Vec3.zero := by
  rcases v with ⟨x, y, z⟩
  unfold Vec3.lengthSq Vec3.zero
  simp only [Vec3.mk.injEq]
  constructor
  · intro h
    have hx : x * x = 0 := by
      nlinarith [mul_self_nonneg x, mul_self_nonneg y, mul_self_nonneg z]
    have hy : y * y = 0 := by
      nlinarith [mul_self_nonneg x, mul_self_nonneg y, mul_self_nonneg z]
    have hz : z * z = 0 := by
      nlinarith [mul_self_nonneg x, mul_self_nonneg y, mul_self_nonneg z]
    exact ⟨mul_self_eq_zero.mp hx, mul_self_eq_zero.mp hy, mul_self_eq_zero.mp hz⟩
  · rintro ⟨rfl, rfl, rfl⟩
    ring

theorem sub_eq_zero_vec3 (a b : Vec3 ℝ) : a - b = Vec3.zero ↔ a = b := by
  rcases a with ⟨ax, ay, az⟩
  rcases b with ⟨bx, by', bz⟩
  simp only [Vec3.sub_def, Vec3.zero, Vec3.mk.injEq]
  constructor
  · rintro ⟨h1, h2, h3⟩
    exact ⟨by linarith, by linarith, by linarith⟩
  · rintro ⟨rfl, rfl, rfl⟩
    exact ⟨by ring, by ring, by ring⟩

theorem vec3_normalize_zero : (Vec3.zero : Vec3 ℝ).normalize = Vec3.zero := by
  unfold Vec3.normalize Vec3.smul Vec3.zero
  simp

theorem vec3_lengthSq_zero : (Vec3.zero : Vec3 ℝ).lengthSq = 0 := by
  unfold Vec3.lengthSq Vec3.zero
  ring

theorem normalize_lengthSq (v : Vec3 ℝ) (hv : v ≠ Vec3.zero) : v.normalize.lengthSq = 1 := by
  have hL : 0 < v.lengthSq :=
    lt_of_le_of_ne (lengthSq_nonneg v) (fun h => hv ((lengthSq_eq_zero_iff v).mp h.symm))
  have hs : Real.sqrt v.lengthSq ^ 2 = v.lengthSq := Real.sq_sqrt hL.le
  have hspos : 0 < Real.sqrt v.lengthSq := Real.sqrt_pos.mpr hL
  rcases v with ⟨x, y, z⟩
  unfold Vec3.normalize Vec3.length Vec3.smul Vec3.lengthSq at *
  field_simp

/-- C5: `Transform::looking_at` errors exactly when `target == eye` (for
any `eye`, `up`) or when the normalized forward direction and `up` are
parallel (their cross product is zero; in the exact-real model "near-zero
length" and non-finiteness collapse to the zero vector).  On success the
returned transform's translation is `eye` and its scale is ones. -/
theorem looking_at_spec (eye target up : Vec3 ℝ) :
    (exceptIsErr (Transform.looking_at eye target up) = true ↔
      (target = eye ∨ (target - eye).normalize.cross up = Vec3.zero)) ∧
    (match Transform.looking_at eye target up with
     | Except.ok t => t.translation = eye ∧ t.scale = Vec3.one
     | Except.error _ => True) := by
  unfold Transform.looking_at
  dsimp only
  by_cases he : target = eye
  · have hd : target - eye = Vec3.zero := (sub_eq_zero_vec3 target eye).mpr he
    rw [hd, vec3_normalize_zero]
    rw [if_pos]
    · constructor
      · simp only [exceptIsErr]
        exact iff_of_true trivial (Or.inl he)
      · exact trivial
    · right
      rw [vec3_lengthSq_zero]
      norm_num [f32Eps]
  · have hd : target - eye ≠ Vec3.zero := fun h => he ((sub_eq_zero_vec3 target eye).mp h)
    have h1 := normalize_lengthSq _ hd
    rw [if_neg]
    swap
    · rintro (hf | hlt)
      · exact hf trivial
      · rw [h1] at hlt
        norm_num [f32Eps] at hlt
    by_cases hcross : (target - eye).normalize.cross up = Vec3.zero
    · rw [hcross, vec3_normalize_zero]
      rw [if_pos]
      · constructor
        · simp only [exceptIsErr]
          exact iff_of_true trivial (Or.inr trivial)
        · exact trivial
      · right
        rw [vec3_lengthSq_zero]
        norm_num [f32Eps]
    · have h2 := normalize_lengthSq _ hcross
      rw [if_neg]
      swap
      · rintro (hf | hlt)
        · exact hf trivial
        · rw [h2] at hlt
          norm_num [f32Eps] at hlt
      rw [if_neg (fun hf => hf trivial), if_neg (fun hf => hf trivial)]
      constructor
      · simp only [exceptIsErr, Bool.false_eq_true, false_iff]
        rintro (h | h)
        · exact he h
        · exact hcross h
      · exact ⟨rfl, rfl⟩

/-! ## C1: round-trip `t.mul_transform(t.inverse())` -/

set_option maxHeartbeats 1000000 in
/-- For a unit rotation and uniform non-zero scale, the matrix of the
transform times the matrix of its `Transform::inverse` output is exactly the
identity matrix. -/
theorem trs_uniform_inverse_matrix (tx ty tz x y z w s : ℝ)
    (h : x * x + y * y + z * z + w * w = 1) (hs : s ≠ 0) :
    (Transform.mk ⟨tx, ty, tz⟩ ⟨x, y, z, w⟩ ⟨s, s, s⟩).compute_matrix *
      (Transform.mk
        (-(Quat.mulVec3 (Quat.conjugate ⟨x, y, z, w⟩)
            (Vec3.mk tx ty tz * ⟨1 / s, 1 / s, 1 / s⟩)))
        (Quat.conjugate ⟨x, y, z, w⟩) ⟨1 / s, 1 / s, 1 / s⟩).compute_matrix =
      Mat4.identity := by
  have hsu : s * (1 / s) = 1 := by field_simp
  generalize hgen : 1 / s = u at hsu ⊢
  simp only [Transform.compute_matrix, Mat4.fromScaleRotationTranslation,
    Quat.conjugate, Quat.mulVec3, Quat.toXAxis, Quat.toYAxis, Quat.toZAxis,
    Vec3.dot, Vec3.cross, Vec3.smul, Vec3.mul_def, Vec3.add_def, Vec3.neg_def,
    Vec4.smul, Vec4.add4_def, Mat4.mul4_def, Mat4.mulMat4, Mat4.mulVec4,
    Mat4.identity, Mat4.mk.injEq, Vec4.mk.injEq]
  and_intros
  · linear_combination (4 * (y * y + z * z) * s * u) * h + hsu
  · linear_combination (-4 * x * y * s * u) * h
  · linear_combination (-4 * x * z * s * u) * h
  · ring
  · linear_combination (-4 * x * y * s * u) * h
  · linear_combination (4 * (x * x + z * z) * s * u) * h + hsu
  · linear_combination (-4 * y * z * s * u) * h
  · ring
  · linear_combination (-4 * x * z * s * u) * h
  · linear_combination (-4 * y * z * s * u) * h
  · linear_combination (4 * (x * x + y * y) * s * u) * h + hsu
  · ring
  · linear_combination (s * u * ((tx * (w * w - x * x - y * y - z * z) +
      2 * x * (x * tx + y * ty + z * tz) + 2 * w * (z * ty - y * tz)) -
      (x * x + y * y + z * z + w * w + 1) * tx)) * h + (-tx) * hsu
  · linear_combination (s * u * ((ty * (w * w - x * x - y * y - z * z) +
      2 * y * (x * tx + y * ty + z * tz) + 2 * w * (x * tz - z * tx)) -
      (x * x + y * y + z * z + w * w + 1) * ty)) * h + (-ty) * hsu
  · linear_combination (s * u * ((tz * (w * w - x * x - y * y - z * z) +
      2 * z * (x * tx + y * ty + z * tz) + 2 * w * (y * tx - x * ty)) -
      (x * x + y * y + z * z + w * w + 1) * tz)) * h + (-tz) * hsu
  · ring

/-- Helper: the square root of four. -/
theorem sqrt_four : Real.sqrt 4 = 2 := by
  rw [show (4 : ℝ) = 2 ^ 2 by norm_num, Real.sqrt_sq (by norm_num)]

/-- `Quat::from_rotation_axes` on the standard basis yields the identity
quaternion. -/
theorem from_rotation_axes_id :
    Quat.from_rotation_axes ⟨1, 0, 0⟩ ⟨0, 1, 0⟩ ⟨0, 0, 1⟩ = Quat.identity := by
  unfold Quat.from_rotation_axes Quat.identity
  rw [if_neg (by norm_num), if_neg (by norm_num)]
  rw [show (1 : ℝ) + 1 + (1 + 1) = 4 by norm_num]
  dsimp only
  rw [sqrt_four]
  simp only [Quat.mk.injEq]
  norm_num

/-- `Transform::from_matrix` decomposes a positive diagonal matrix into zero
translation, identity rotation, and the diagonal as scale. -/
theorem from_matrix_diag (a b c : ℝ) (ha : 0 < a) (hb : 0 < b) (hc : 0 < c) :
    Transform.from_matrix ⟨⟨a, 0, 0, 0⟩, ⟨0, b, 0, 0⟩, ⟨0, 0, c, 0⟩, ⟨0, 0, 0, 1⟩⟩ =
      Transform.mk ⟨0, 0, 0⟩ Quat.identity ⟨a, b, c⟩ := by
  have hdet : Mat4.determinant
      (⟨⟨a, 0, 0, 0⟩, ⟨0, b, 0, 0⟩, ⟨0, 0, c, 0⟩, ⟨0, 0, 0, 1⟩⟩ : Mat4 ℝ) = a * b * c := by
    simp only [Mat4.determinant]
    ring
  have hsgn : f32Signum (a * b * c) = 1 := by
    unfold f32Signum
    rw [if_neg]
    push_neg
    positivity
  have hsa : Real.sqrt (a * a + 0 * 0 + 0 * 0 + 0 * 0) = a := by
    rw [show a * a + 0 * 0 + 0 * 0 + 0 * 0 = a ^ 2 by ring, Real.sqrt_sq ha.le]
  have hsb : Real.sqrt (0 * 0 + b * b + 0 * 0 + 0 * 0) = b := by
    rw [show 0 * 0 + b * b + 0 * 0 + 0 * 0 = b ^ 2 by ring, Real.sqrt_sq hb.le]
  have hsc : Real.sqrt (0 * 0 + 0 * 0 + c * c + 0 * 0) = c := by
    rw [show 0 * 0 + 0 * 0 + c * c + 0 * 0 = c ^ 2 by ring, Real.sqrt_sq hc.le]
  unfold Transform.from_matrix Mat4.to_scale_rotation_translation
  dsimp only [Vec4.length, Vec4.lengthSq, Vec4.smul, Vec4.truncate]
  rw [hdet, hsgn, hsa, hsb, hsc]
  have hx : a * (1 / a) = 1 := by field_simp
  have hy : b * (1 / b) = 1 := by field_simp
  have hz : c * (1 / c) = 1 := by field_simp
  simp only [mul_zero, zero_mul, mul_one, hx, hy, hz]
  rw [from_rotation_axes_id]

/-- C1 (amended): for every `Transform` with unit rotation quaternion and
uniform scale of magnitude at least `f32::EPSILON`, `inverse` succeeds and
`mul_transform` with its output is exactly `Transform::IDENTITY`, hence within
every floating tolerance: translation within 1e-5 of zero, rotation dot the
identity quaternion within 1e-5 of one, scale within 1e-5 of ones. -/
theorem inverse_roundtrip_identity (τ : Vec3 ℝ) (q : Quat ℝ) (s : ℝ)
    (hq : Quat.normSq q = 1) (hs : f32Eps ℝ ≤ |s|) :
    ∃ ti, (Transform.mk τ q ⟨s, s, s⟩).inverse = Except.ok ti ∧
      Transform.mul_transform (Transform.mk τ q ⟨s, s, s⟩) ti = Transform.IDENTITY ∧
      (Transform.mul_transform (Transform.mk τ q ⟨s, s, s⟩) ti).translation.lengthSq <
        1 / 10000000000 ∧
      |Quat.dot (Transform.mul_transform (Transform.mk τ q ⟨s, s, s⟩) ti).rotation
          Quat.identity - 1| < 1 / 100000 ∧
      ((Transform.mul_transform (Transform.mk τ q ⟨s, s, s⟩) ti).scale -
          Vec3.one).lengthSq < 1 / 10000000000 := by
  rcases τ with ⟨tx, ty, tz⟩
  rcases q with ⟨x, y, z, w⟩
  have hs0 : s ≠ 0 := by
    intro h0
    rw [h0] at hs
    norm_num [f32Eps] at hs
  simp only [Quat.normSq, Quat.dot] at hq
  have hinv : (Transform.mk ⟨tx, ty, tz⟩ ⟨x, y, z, w⟩ ⟨s, s, s⟩).inverse = Except.ok
      (Transform.mk
        (-(Quat.mulVec3 (Quat.conjugate ⟨x, y, z, w⟩)
            (Vec3.mk tx ty tz * ⟨1 / s, 1 / s, 1 / s⟩)))
        (Quat.conjugate ⟨x, y, z, w⟩) ⟨1 / s, 1 / s, 1 / s⟩) := by
    unfold Transform.inverse
    rw [if_neg]
    · rfl
    · rintro (h1 | h1 | h1) <;> exact absurd h1 (not_lt.mpr hs)
  have hmul : Transform.mul_transform (Transform.mk ⟨tx, ty, tz⟩ ⟨x, y, z, w⟩ ⟨s, s, s⟩)
      (Transform.mk
        (-(Quat.mulVec3 (Quat.conjugate ⟨x, y, z, w⟩)
            (Vec3.mk tx ty tz * ⟨1 / s, 1 / s, 1 / s⟩)))
        (Quat.conjugate ⟨x, y, z, w⟩) ⟨1 / s, 1 / s, 1 / s⟩) = Transform.IDENTITY := by
    unfold Transform.mul_transform
    rw [trs_uniform_inverse_matrix tx ty tz x y z w s hq hs0]
    exact from_matrix_diag 1 1 1 one_pos one_pos one_pos
  refine ⟨_, hinv, hmul, ?_, ?_, ?_⟩
  · rw [hmul]
    norm_num [Transform.IDENTITY, Vec3.zero, Vec3.lengthSq]
  · rw [hmul]
    norm_num [Transform.IDENTITY, Quat.identity, Quat.dot]
  · rw [hmul]
    norm_num [Transform.IDENTITY, Vec3.one, Vec3.sub_def, Vec3.lengthSq, Vec3.zero]

/-- Witness for `inverse_roundtrip_identity` at translation (1,2,3), identity
rotation, uniform scale 2. -/
theorem inverse_roundtrip_identity_witness :
    Quat.normSq (⟨0, 0, 0, 1⟩ : Quat ℝ) = 1 ∧ f32Eps ℝ ≤ |(2 : ℝ)| ∧
    ∃ ti, (Transform.mk ⟨1, 2, 3⟩ ⟨0, 0, 0, 1⟩ ⟨2, 2, 2⟩ : Transform ℝ).inverse =
        Except.ok ti ∧
      Transform.mul_transform
          (Transform.mk ⟨1, 2, 3⟩ ⟨0, 0, 0, 1⟩ ⟨2, 2, 2⟩ : Transform ℝ) ti =
        Transform.IDENTITY ∧
      (Transform.mul_transform
          (Transform.mk ⟨1, 2, 3⟩ ⟨0, 0, 0, 1⟩ ⟨2, 2, 2⟩ : Transform ℝ)
          ti).translation.lengthSq < 1 / 10000000000 ∧
      |Quat.dot (Transform.mul_transform
            (Transform.mk ⟨1, 2, 3⟩ ⟨0, 0, 0, 1⟩ ⟨2, 2, 2⟩ : Transform ℝ) ti).rotation
          Quat.identity - 1| < 1 / 100000 ∧
      ((Transform.mul_transform
            (Transform.mk ⟨1, 2, 3⟩ ⟨0, 0, 0, 1⟩ ⟨2, 2, 2⟩ : Transform ℝ) ti).scale -
          Vec3.one).lengthSq < 1 / 10000000000 :=
  ⟨by norm_num [Quat.normSq, Quat.dot], by norm_num [f32Eps],
    inverse_roundtrip_identity ⟨1, 2, 3⟩ ⟨0, 0, 0, 1⟩ 2
      (by norm_num [Quat.normSq, Quat.dot]) (by norm_num [f32Eps])⟩

set_option maxHeartbeats 1000000 in
/-- C1 (counterexample): the transform with unit rotation (0,0,√2/2,√2/2) (a
90° turn about z), non-uniform scale (2,1,1) and zero translation is finite
and non-degenerate — every scale magnitude is at least `f32::EPSILON` — yet
`mul_transform` with its successful `inverse` output has scale (1/2,2,1),
which is not within the 1e-5 tolerance of ones, refuting the claim as stated
for non-uniform scales. -/
theorem inverse_roundtrip_counterexample :
    ∃ ti,
      (Transform.mk Vec3.zero ⟨0, 0, Real.sqrt 2 / 2, Real.sqrt 2 / 2⟩
          ⟨2, 1, 1⟩ : Transform ℝ).inverse = Except.ok ti ∧
      Quat.normSq (⟨0, 0, Real.sqrt 2 / 2, Real.sqrt 2 / 2⟩ : Quat ℝ) = 1 ∧
      f32Eps ℝ ≤ |(2 : ℝ)| ∧ f32Eps ℝ ≤ |(1 : ℝ)| ∧
      ¬ (((Transform.mul_transform
            (Transform.mk Vec3.zero ⟨0, 0, Real.sqrt 2 / 2, Real.sqrt 2 / 2⟩
              ⟨2, 1, 1⟩) ti).scale - Vec3.one).lengthSq < 1 / 10000000000) := by
  have hv : Real.sqrt 2 / 2 * (Real.sqrt 2 / 2) = 1 / 2 := by
    rw [div_mul_div_comm, Real.mul_self_sqrt (by norm_num : (0:ℝ) ≤ 2)]
    norm_num
  generalize hg : Real.sqrt 2 / 2 = v at hv ⊢
  refine ⟨Transform.mk
      (-(Quat.mulVec3 (Quat.conjugate ⟨0, 0, v, v⟩)
          (Vec3.zero * ⟨1 / 2, 1 / 1, 1 / 1⟩)))
      (Quat.conjugate ⟨0, 0, v, v⟩) ⟨1 / 2, 1 / 1, 1 / 1⟩, ?_, ?_, ?_, ?_, ?_⟩
  · unfold Transform.inverse
    rw [if_neg]
    · rfl
    · rintro (h1 | h1 | h1) <;> norm_num [f32Eps] at h1
  · simp only [Quat.normSq, Quat.dot]
    linear_combination 2 * hv
  · norm_num [f32Eps]
  · norm_num [f32Eps]
  · have hM0 : (Transform.mk Vec3.zero ⟨0, 0, v, v⟩
        (⟨2, 1, 1⟩ : Vec3 ℝ)).compute_matrix =
        ⟨⟨0, 2, 0, 0⟩, ⟨-1, 0, 0, 0⟩, ⟨0, 0, 1, 0⟩, ⟨0, 0, 0, 1⟩⟩ := by
      simp only [Transform.compute_matrix, Mat4.fromScaleRotationTranslation,
        Quat.toXAxis, Quat.toYAxis, Quat.toZAxis, Vec4.smul, Vec3.zero,
        Mat4.mk.injEq, Vec4.mk.injEq]
      and_intros <;>
        first
          | trivial
          | ring1
          | linear_combination (-4 : ℝ) * hv
          | linear_combination (4 : ℝ) * hv
          | linear_combination (-2 : ℝ) * hv
    have hMi : (Transform.mk
        (-(Quat.mulVec3 (Quat.conjugate ⟨0, 0, v, v⟩)
            (Vec3.zero * ⟨1 / 2, 1 / 1, 1 / 1⟩)))
        (Quat.conjugate ⟨0, 0, v, v⟩)
        (⟨1 / 2, 1 / 1, 1 / 1⟩ : Vec3 ℝ)).compute_matrix =
        ⟨⟨0, -(1 / 2), 0, 0⟩, ⟨1, 0, 0, 0⟩, ⟨0, 0, 1, 0⟩, ⟨0, 0, 0, 1⟩⟩ := by
      simp only [Transform.compute_matrix, Mat4.fromScaleRotationTranslation,
        Quat.toXAxis, Quat.toYAxis, Quat.toZAxis, Quat.conjugate, Quat.mulVec3,
        Vec3.dot, Vec3.cross, Vec3.smul, Vec3.add_def, Vec3.mul_def, Vec3.neg_def,
        Vec3.zero, Vec4.smul, Mat4.mk.injEq, Vec4.mk.injEq]
      and_intros <;>
        first
          | trivial
          | ring1
          | linear_combination (-4 : ℝ) * hv
          | linear_combination (4 : ℝ) * hv
          | linear_combination (-2 : ℝ) * hv
          | linear_combination (2 : ℝ) * hv
          | linear_combination (-1 : ℝ) * hv
    have hprod : (⟨⟨0, 2, 0, 0⟩, ⟨-1, 0, 0, 0⟩, ⟨0, 0, 1, 0⟩,
          ⟨0, 0, 0, 1⟩⟩ : Mat4 ℝ) *
        ⟨⟨0, -(1 / 2), 0, 0⟩, ⟨1, 0, 0, 0⟩, ⟨0, 0, 1, 0⟩, ⟨0, 0, 0, 1⟩⟩ =
        ⟨⟨1 / 2, 0, 0, 0⟩, ⟨0, 2, 0, 0⟩, ⟨0, 0, 1, 0⟩, ⟨0, 0, 0, 1⟩⟩ := by
      simp only [Mat4.mul4_def, Mat4.mulMat4, Mat4.mulVec4, Vec4.smul, Vec4.add4_def,
        Mat4.mk.injEq, Vec4.mk.injEq]
      norm_num
    have hmul : Transform.mul_transform
        (Transform.mk Vec3.zero ⟨0, 0, v, v⟩ ⟨2, 1, 1⟩)
        (Transform.mk
          (-(Quat.mulVec3 (Quat.conjugate ⟨0, 0, v, v⟩)
              (Vec3.zero * ⟨1 / 2, 1 / 1, 1 / 1⟩)))
          (Quat.conjugate ⟨0, 0, v, v⟩) ⟨1 / 2, 1 / 1, 1 / 1⟩) =
        Transform.mk ⟨0, 0, 0⟩ Quat.identity ⟨1 / 2, 2, 1⟩ := by
      unfold Transform.mul_transform
      rw [hM0, hMi, hprod]
      exact from_matrix_diag (1 / 2) 2 1 (by norm_num) (by norm_num) (by norm_num)
    rw [hmul]
    norm_num [Vec3.one, Vec3.sub_def, Vec3.lengthSq]
